import Mathlib

/-!
Verification of the WoW addon version bumper.

Shallow embedding of the repository's TypeScript sources:
`src/toc-manager.ts`, `src/version-manager.ts`, `src/version-bumper.ts`,
`src/git-manager.ts` and the CLI dispatch.  JS strings are embedded as
`List Char`; JS regular-expression behaviour for the single pattern
the program uses (`/^## Version: (.+)$/m`) is embedded directly,
following the ECMAScript semantics of `^`, `$` (multiline) and `.`
(any character except a LineTerminator).
-/

/-- JS strings are modelled as lists of characters. -/
abbrev Str := List Char

/-- ECMAScript LineTerminator characters: LF, CR, LS, PS. -/
def isLineTerm (c : Char) : Bool :=
  c = '\n' || c = '\r' || c = ' ' || c = ' '

/-- The literal part of the pattern `/^## Version: (.+)$/m`
(`tocPattern` in `src/toc-manager.ts`). -/
def versionMarker : Str := "## Version: ".toList

/-- Attempt to match `## Version: (.+)$` at the current position.
`.` matches any character except a LineTerminator; `.+` is greedy, and
`$` (multiline) requires the following position to be end-of-input or a
LineTerminator, so the capture is exactly the non-empty remainder of the
line.  Returns the captured group and the suffix after it. -/
def matchHere (cs : Str) : Option (Str × Str) :=
  if versionMarker.isPrefixOf cs then
    let rest := cs.drop versionMarker.length
    let v := rest.takeWhile (fun c => !isLineTerm c)
    if v.isEmpty then none
    else some (v, rest.drop v.length)
  else none

/-- Leftmost match of `/^## Version: (.+)$/m` in `cs`.  The flag records
whether the current position is a line start (`^` in multiline mode
matches at position 0 and immediately after any LineTerminator); the
scan advances one character at a time.  Returns
`(prefix before the match, captured group, suffix after the match)`. -/
def findVersionAux : Bool → Str → Option (Str × Str × Str)
  | atStart, cs =>
    match (if atStart then matchHere cs else none) with
    | some (v, suf) => some ([], v, suf)
    | none =>
      match cs with
      | [] => none
      | c :: rest =>
        match findVersionAux (isLineTerm c) rest with
        | some (p, v, s) => some (c :: p, v, s)
        | none => none

/-- First match of `tocPattern` in a whole content string
(`content.match(this.tocPattern)`). -/
def findVersionLine (cs : Str) : Option (Str × Str × Str) :=
  findVersionAux true cs

/-- `src/toc-manager.ts` lines 62-74: a TOC file record as built by
`loadAllTocFiles` (path, raw content, extracted version, addon name). -/
structure TocFile where
  path : Str
  content : Str
  version : Str
  addonName : Str
deriving DecidableEq, Repr

/-- `src/toc-manager.ts` `loadAllTocFiles`, per-file step: match the
content against `tocPattern`; on a match push a record whose `version`
is the captured group `match[1]`, otherwise record nothing (a warning
is printed). -/
def loadTocRecord (path addonName : Str) (content : Str) : Option TocFile :=
  match findVersionLine content with
  | some (_, v, _) => some ⟨path, content, v, addonName⟩
  | none => none

example : (loadTocRecord "p".toList "a".toList "## Version: 1.2.3\r\nfoo".toList).map
    (fun r => r.version) = some "1.2.3".toList := by decide

/-- A string free of LineTerminator characters. -/
def noTermB (s : Str) : Bool := s.all (fun c => !isLineTerm c)

/-- A string that is empty or begins with a LineTerminator (the shape of
the text following a `$`-terminated capture in multiline mode). -/
def termStartB (s : Str) : Bool :=
  match s with
  | [] => true
  | c :: _ => isLineTerm c

lemma drop_takeWhile_length (p : Char → Bool) (l : Str) :
    l.drop (l.takeWhile p).length = l.dropWhile p := by
  induction l with
  | nil => rfl
  | cons c t ih =>
    by_cases h : p c
    · simp [List.takeWhile_cons, List.dropWhile_cons, h, ih]
    · simp [List.takeWhile_cons, List.dropWhile_cons, h]

lemma termStartB_dropWhile (l : Str) :
    termStartB (l.dropWhile (fun c => !isLineTerm c)) = true := by
  induction l with
  | nil => rfl
  | cons c t ih =>
    by_cases h : isLineTerm c
    · simp [List.dropWhile_cons, h, termStartB]
    · simp [List.dropWhile_cons, h, ih]

lemma noTermB_takeWhile (l : Str) :
    noTermB (l.takeWhile (fun c => !isLineTerm c)) = true := by
  induction l with
  | nil => rfl
  | cons c t ih =>
    by_cases h : isLineTerm c
    · simp [List.takeWhile_cons, h, noTermB]
    · simp only [noTermB] at ih ⊢
      simp [List.takeWhile_cons, h, ih]

lemma findVersionAux_nil (atStart : Bool) : findVersionAux atStart [] = none := by
  cases atStart <;> rfl

lemma findVersionAux_cons (atStart : Bool) (c : Char) (rest : Str) :
    findVersionAux atStart (c :: rest) =
      match (if atStart then matchHere (c :: rest) else none) with
      | some (v, suf) => some ([], v, suf)
      | none =>
        match findVersionAux (isLineTerm c) rest with
        | some (p, v, s) => some (c :: p, v, s)
        | none => none := by
  rw [findVersionAux]

/-- One-step unfolding of `findVersionAux` for an arbitrary string. -/
lemma findVersionAux_unfold (atStart : Bool) (cs : Str) :
    findVersionAux atStart cs =
      match (if atStart then matchHere cs else none) with
      | some (v, suf) => some ([], v, suf)
      | none =>
        match cs with
        | [] => none
        | c :: rest =>
          match findVersionAux (isLineTerm c) rest with
          | some (p, v, s) => some (c :: p, v, s)
          | none => none := by
  cases cs with
  | nil => cases atStart <;> rfl
  | cons c rest => rw [findVersionAux_cons]

/-- Decomposition of a successful `matchHere`. -/
lemma matchHere_eq_some {cs v s : Str} (h : matchHere cs = some (v, s)) :
    cs = versionMarker ++ v ++ s ∧ v ≠ [] ∧ noTermB v = true ∧ termStartB s = true := by
  unfold matchHere at h
  by_cases hp : versionMarker.isPrefixOf cs
  · rw [if_pos hp] at h
    cases he : ((cs.drop versionMarker.length).takeWhile (fun c => !isLineTerm c)).isEmpty with
    | true => simp [he] at h
    | false =>
      simp only [he, Bool.false_eq_true, if_false, Option.some.injEq, Prod.mk.injEq] at h
      obtain ⟨hv, hs⟩ := h
      subst hv
      subst hs
      have hcs : versionMarker ++ cs.drop versionMarker.length = cs :=
        (List.prefix_iff_eq_append).mp (List.isPrefixOf_iff_prefix.mp hp)
      have hsplit :
          (cs.drop versionMarker.length).takeWhile (fun c => !isLineTerm c) ++
            (cs.drop versionMarker.length).drop
              ((cs.drop versionMarker.length).takeWhile (fun c => !isLineTerm c)).length =
            cs.drop versionMarker.length := by
        rw [drop_takeWhile_length]
        exact List.takeWhile_append_dropWhile _ _
      refine ⟨?_, ?_, ?_, ?_⟩
      · rw [List.append_assoc, hsplit, hcs]
      · intro hnil
        rw [hnil] at he
        simp at he
      · exact noTermB_takeWhile _
      · rw [drop_takeWhile_length]; exact termStartB_dropWhile _
  · rw [if_neg hp] at h
    exact absurd h (by simp)

/-- `matchHere` succeeds on a well-shaped version line, capturing exactly
the non-terminator run. -/
lemma matchHere_good {w s : Str} (hw : w ≠ []) (hnt : noTermB w = true)
    (hts : termStartB s = true) :
    matchHere (versionMarker ++ (w ++ s)) = some (w, s) := by
  have hall : ∀ c ∈ w, (fun c => !isLineTerm c) c = true := by
    intro c hc
    exact List.all_eq_true.mp hnt c hc
  have htakes : s.takeWhile (fun c => !isLineTerm c) = [] := by
    cases s with
    | nil => rfl
    | cons c t =>
      have hc : isLineTerm c = true := hts
      simp [List.takeWhile_cons, hc]
  have htake : (w ++ s).takeWhile (fun c => !isLineTerm c) = w := by
    rw [List.takeWhile_append_of_pos hall, htakes, List.append_nil]
  have hpre : versionMarker.isPrefixOf (versionMarker ++ (w ++ s)) = true :=
    List.isPrefixOf_iff_prefix.mpr (List.prefix_append _ _)
  have hine : w.isEmpty = false := by
    cases w with
    | nil => exact absurd rfl hw
    | cons a t => rfl
  unfold matchHere
  rw [if_pos hpre]
  simp only [List.drop_left, htake, hine, Bool.false_eq_true, if_false]

/-- Decomposition of a successful leftmost search: the content splits as
prefix ++ marker ++ capture ++ suffix, the capture is non-empty and free of
line terminators, and the suffix is empty or starts with a line terminator. -/
lemma findVersionAux_eq_some :
    ∀ (cs : Str) (atStart : Bool) (p v s : Str),
      findVersionAux atStart cs = some (p, v, s) →
      cs = p ++ (versionMarker ++ (v ++ s)) ∧ v ≠ [] ∧
        noTermB v = true ∧ termStartB s = true := by
  intro cs
  induction cs with
  | nil =>
    intro atStart p v s h
    rw [findVersionAux_nil] at h
    exact absurd h (by simp)
  | cons c rest ih =>
    intro atStart p v s h
    rw [findVersionAux_cons] at h
    split at h
    · next v0 suf0 heq =>
      simp only [Option.some.injEq, Prod.mk.injEq] at h
      obtain ⟨hp, hv, hs⟩ := h
      subst hp; subst hv; subst hs
      have hmh : matchHere (c :: rest) = some (v0, suf0) := by
        cases atStart with
        | false => simp at heq
        | true => simpa using heq
      have hdec := matchHere_eq_some hmh
      exact ⟨by simpa using hdec.1, hdec.2.1, hdec.2.2.1, hdec.2.2.2⟩
    · next heq =>
      split at h
      · next p' v' s' hf =>
        simp only [Option.some.injEq, Prod.mk.injEq] at h
        obtain ⟨hp, hv, hs⟩ := h
        subst hv; subst hs
        obtain ⟨h1, h2, h3, h4⟩ := ih (isLineTerm c) p' v' s' hf
        refine ⟨?_, h2, h3, h4⟩
        rw [← hp]
        simp [h1]
      · next hf => exact absurd h (by simp)

/-- Characterisation of `matchHere` failure. -/
lemma matchHere_eq_none_iff (u : Str) :
    matchHere u = none ↔
      versionMarker.isPrefixOf u = false ∨
        ((u.drop versionMarker.length).takeWhile (fun c => !isLineTerm c)).isEmpty
          = true := by
  unfold matchHere
  by_cases hp : versionMarker.isPrefixOf u
  · rw [if_pos hp]
    cases he : ((u.drop versionMarker.length).takeWhile (fun c => !isLineTerm c)).isEmpty with
    | true => simp [he, hp]
    | false => simp [he, hp]
  · simp [hp]

/-- If `matchHere` fails at a position whose text is `zs` followed by a
well-shaped version line, it still fails when the line's value is replaced
by another value starting with a non-terminator: failure at this position
depends only on `zs` and on the (unchanged) marker that follows. -/
lemma matchHere_none_transfer {zs : Str} {cx cy : Char} {tx ty : Str}
    (hcx : isLineTerm cx = false) (hcy : isLineTerm cy = false)
    (h : matchHere (zs ++ (versionMarker ++ (cx :: tx))) = none) :
    matchHere (zs ++ (versionMarker ++ (cy :: ty))) = none := by
  rw [← List.append_assoc] at h
  rw [← List.append_assoc]
  rw [matchHere_eq_none_iff] at h ⊢
  have hlen : versionMarker.length ≤ (zs ++ versionMarker).length := by
    rw [List.length_append]
    exact Nat.le_add_left _ _
  have hpre : ∀ r : Str, versionMarker.isPrefixOf ((zs ++ versionMarker) ++ r) =
      versionMarker.isPrefixOf ((zs ++ versionMarker) ++ ([] : Str)) := by
    intro r
    have h1 : ∀ r : Str, (versionMarker.isPrefixOf ((zs ++ versionMarker) ++ r) = true) ↔
        versionMarker = ((zs ++ versionMarker)).take versionMarker.length := by
      intro r
      rw [List.isPrefixOf_iff_prefix, List.prefix_iff_eq_take,
        List.take_append_of_le_length hlen]
    cases hb : versionMarker.isPrefixOf ((zs ++ versionMarker) ++ ([] : Str)) with
    | true => exact ((h1 r).mpr ((h1 []).mp hb))
    | false =>
      cases hb2 : versionMarker.isPrefixOf ((zs ++ versionMarker) ++ r) with
      | true =>
        exact absurd ((h1 []).mpr ((h1 r).mp hb2)) (by rw [hb]; simp)
      | false => rfl
  have hdropT : ∀ r : Str, ((zs ++ versionMarker) ++ r).drop versionMarker.length =
      (zs ++ versionMarker).drop versionMarker.length ++ r := by
    intro r
    exact List.drop_append_of_le_length hlen
  have hTW :
      ((((zs ++ versionMarker).drop versionMarker.length ++ (cx :: tx)).takeWhile
        (fun c => !isLineTerm c)).isEmpty) =
      ((((zs ++ versionMarker).drop versionMarker.length ++ (cy :: ty)).takeWhile
        (fun c => !isLineTerm c)).isEmpty) := by
    cases hD : (zs ++ versionMarker).drop versionMarker.length with
    | nil => simp [List.takeWhile_cons, hcx, hcy]
    | cons d D2 =>
      by_cases hd : isLineTerm d
      · simp [List.takeWhile_cons, hd]
      · simp [List.takeWhile_cons, hd]
  rcases h with h | h
  · left
    rw [hpre] at h ⊢
    exact h
  · right
    rw [hdropT] at h ⊢
    rw [← hTW]
    exact h

/-- A search result whose prefix is empty comes from a `matchHere`
success at the very first position. -/
lemma findVersionAux_nil_prefix {atStart : Bool} {cs v s : Str}
    (h : findVersionAux atStart cs = some ([], v, s)) :
    atStart = true ∧ matchHere cs = some (v, s) := by
  rw [findVersionAux_unfold] at h
  split at h
  · next v0 suf0 heq =>
    simp only [Option.some.injEq, Prod.mk.injEq] at h
    obtain ⟨-, hv, hs⟩ := h
    subst hv; subst hs
    cases atStart with
    | false => simp at heq
    | true => exact ⟨rfl, by simpa using heq⟩
  · next heq =>
    exfalso
    cases cs with
    | nil => simp at h
    | cons c rest =>
      simp only [] at h
      cases hf : findVersionAux (isLineTerm c) rest with
      | none => rw [hf] at h; simp at h
      | some tri =>
        obtain ⟨p1, v1, s1⟩ := tri
        rw [hf] at h
        simp at h

/-- Stability of the leftmost match under replacement of the matched value:
if the first match sits exactly after `p` with capture `v` and suffix `s`,
then after replacing `v` by any non-empty terminator-free `w` the first
match sits at the same position with capture `w` and suffix `s`. -/
lemma findVersionAux_stable :
    ∀ (p : Str) (atStart : Bool) (v s w : Str),
      findVersionAux atStart (p ++ (versionMarker ++ (v ++ s))) = some (p, v, s) →
      w ≠ [] → noTermB w = true →
      findVersionAux atStart (p ++ (versionMarker ++ (w ++ s))) = some (p, w, s) := by
  intro p
  induction p with
  | nil =>
    intro atStart v s w h hw hnw
    simp only [List.nil_append] at h ⊢
    obtain ⟨hat, hmh⟩ := findVersionAux_nil_prefix h
    subst hat
    have hts : termStartB s = true := (matchHere_eq_some hmh).2.2.2
    have hmg : matchHere (versionMarker ++ (w ++ s)) = some (w, s) :=
      matchHere_good hw hnw hts
    rw [findVersionAux_unfold]
    simp [hmg]
  | cons c p2 ih =>
    intro atStart v s w h hw hnw
    rw [List.cons_append] at h ⊢
    rw [findVersionAux_cons] at h
    rw [findVersionAux_cons]
    split at h
    · next v0 suf0 heq =>
      simp at h
    · next heq =>
      have hinner : findVersionAux (isLineTerm c) (p2 ++ (versionMarker ++ (v ++ s)))
          = some (p2, v, s) := by
        cases hf : findVersionAux (isLineTerm c) (p2 ++ (versionMarker ++ (v ++ s))) with
        | none => rw [hf] at h; simp at h
        | some tri =>
          obtain ⟨p1, v1, s1⟩ := tri
          rw [hf] at h
          simp only [Option.some.injEq, Prod.mk.injEq, List.cons.injEq] at h
          obtain ⟨⟨-, hp⟩, hv, hs⟩ := h
          rw [hp, hv, hs]
      have hIH := ih (isLineTerm c) v s w hinner hw hnw
      have hnone : (if atStart
          then matchHere (c :: (p2 ++ (versionMarker ++ (w ++ s)))) else none) = none := by
        cases atStart with
        | false => rfl
        | true =>
          simp only [if_true] at heq ⊢
          obtain ⟨-, hvne, hvnt, -⟩ := findVersionAux_eq_some _ _ _ _ _ hinner
          obtain ⟨cv, tv, hvsplit⟩ := List.exists_cons_of_ne_nil hvne
          obtain ⟨cw, tw, hwsplit⟩ := List.exists_cons_of_ne_nil hw
          have hcv : isLineTerm cv = false := by
            have := List.all_eq_true.mp hvnt cv (by rw [hvsplit]; simp)
            simpa using this
          have hcw : isLineTerm cw = false := by
            have := List.all_eq_true.mp hnw cw (by rw [hwsplit]; simp)
            simpa using this
          have htrans :
              matchHere ((c :: p2) ++ (versionMarker ++ (cw :: (tw ++ s)))) = none :=
            matchHere_none_transfer hcv hcw
              (by rw [hvsplit] at heq; simpa using heq)
          rw [hwsplit]
          simpa using htrans
      rw [hnone]
      simp [hIH]

/-- A string free of dollar signs (no replacement-template escapes). -/
def noDollarB (s : Str) : Bool := s.all (fun c => !(c = '$'))

/-- ECMAScript `GetSubstitution` applied to a replacement template, for a
pattern with exactly one capture group (`tocPattern`): a doubled dollar is a
literal dollar, dollar-ampersand the whole match, dollar-backquote the text
before the match, dollar-apostrophe the text after it, and `$1` (also the
two-digit form `$01`, when not extended by a further digit) the capture;
every other dollar sequence, in particular group references beyond the
group count, stands for itself. -/
def expandRepl (matched before after group1 : Str) : Str → Str
  | [] => []
  | ['$'] => ['$']
  | '$' :: c2 :: t2 =>
    if c2 = '$' then '$' :: expandRepl matched before after group1 t2
    else if c2 = '&' then matched ++ expandRepl matched before after group1 t2
    else if c2 = Char.ofNat 96 then before ++ expandRepl matched before after group1 t2
    else if c2 = Char.ofNat 39 then after ++ expandRepl matched before after group1 t2
    else if c2 = '0' then
      match t2 with
      | '1' :: t3 => group1 ++ expandRepl matched before after group1 t3
      | [] => '$' :: c2 :: expandRepl matched before after group1 []
      | d :: t3 => '$' :: c2 :: expandRepl matched before after group1 (d :: t3)
    else if c2 = '1' then
      match t2 with
      | [] => group1 ++ expandRepl matched before after group1 []
      | d :: t3 =>
        if d.isDigit then '$' :: c2 :: expandRepl matched before after group1 (d :: t3)
        else group1 ++ expandRepl matched before after group1 (d :: t3)
    else '$' :: c2 :: expandRepl matched before after group1 t2
  | c :: t => c :: expandRepl matched before after group1 t
termination_by t => t.length
decreasing_by all_goals (simp only [List.length_cons]; omega)

/-- `src/toc-manager.ts` lines 102-104, `updateVersionInContent`:
`content.replace(this.tocPattern, "## Version: " + newVersion)` — replace
the leftmost match of the pattern by the template (with `$` expansion of
the template against the match); if there is no match, return the content
unchanged. -/
def updateVersionInContent (content newVersion : Str) : Str :=
  match findVersionLine content with
  | none => content
  | some (p, v, s) =>
      p ++ expandRepl (versionMarker ++ v) p s v (versionMarker ++ newVersion) ++ s

/-- A dollar-free template expands to itself. -/
lemma expandRepl_no_dollar (matched before after group1 : Str) :
    ∀ t : Str, noDollarB t = true →
      expandRepl matched before after group1 t = t := by
  intro t
  induction t with
  | nil => intro h; rw [expandRepl]
  | cons c t ih =>
    intro h
    have hc : ¬(c = '$') := by
      have := List.all_eq_true.mp h c (by simp)
      simpa using this
    have ht : noDollarB t = true := by
      apply List.all_eq_true.mpr
      intro x hx
      exact List.all_eq_true.mp h x (by simp [hx])
    rw [expandRepl]
    · rw [ih ht]
    · intro hcd
      exact absurd hcd hc
    · intro c2 t2 hcd
      exact absurd hcd hc

lemma noDollarB_append {a b : Str} (ha : noDollarB a = true) (hb : noDollarB b = true) :
    noDollarB (a ++ b) = true := by
  apply List.all_eq_true.mpr
  intro x hx
  rcases List.mem_append.mp hx with h | h
  · exact List.all_eq_true.mp ha x h
  · exact List.all_eq_true.mp hb x h

lemma noDollarB_versionMarker : noDollarB versionMarker = true := by decide

/-- Evaluation of `updateVersionInContent` on a matching content for a
dollar-free replacement version. -/
lemma updateVersionInContent_eq_some {content p v s : Str} (V : Str)
    (h : findVersionLine content = some (p, v, s)) (hV : noDollarB V = true) :
    updateVersionInContent content V = p ++ (versionMarker ++ (V ++ s)) := by
  unfold updateVersionInContent
  rw [h]
  simp only []
  rw [expandRepl_no_dollar _ _ _ _ _ (noDollarB_append noDollarB_versionMarker hV)]
  simp [List.append_assoc]

/-- C9: for every successfully loaded metadata file whose content contains a
line matching the version pattern, the stored record's version field is the
remainder of that line with the line terminator excluded: it is non-empty,
contains no carriage return or line feed (so CRLF content yields a value
without the CR), and the content decomposes as prefix, marker, value and a
suffix that is empty or starts at a line terminator. -/
theorem loadTocRecord_version_excludes_terminator
    (path addonName content p v s : Str)
    (h : findVersionLine content = some (p, v, s)) :
    loadTocRecord path addonName content = some ⟨path, content, v, addonName⟩ ∧
    content = p ++ (versionMarker ++ (v ++ s)) ∧
    v ≠ [] ∧ (∀ c ∈ v, c ≠ '\r' ∧ c ≠ '\n') ∧
    noTermB v = true ∧ termStartB s = true := by
  obtain ⟨h1, h2, h3, h4⟩ := findVersionAux_eq_some content true p v s h
  refine ⟨?_, h1, h2, ?_, h3, h4⟩
  · unfold loadTocRecord
    rw [h]
  · intro c hc
    have hterm := List.all_eq_true.mp h3 c hc
    simp only [Bool.not_eq_true'] at hterm
    constructor <;> (intro he; subst he; exact absurd hterm (by decide))

/-- Witness for C9 at CRLF content: the extracted version of
`"## Version: 1.2.3\r\nfoo"` is `"1.2.3"`, carriage return excluded. -/
theorem loadTocRecord_version_excludes_terminator_witness :
    findVersionLine "## Version: 1.2.3\r\nfoo".toList =
        some ([], "1.2.3".toList, "\r\nfoo".toList) ∧
    (loadTocRecord "p".toList "A".toList "## Version: 1.2.3\r\nfoo".toList =
        some ⟨"p".toList, "## Version: 1.2.3\r\nfoo".toList, "1.2.3".toList, "A".toList⟩ ∧
      "## Version: 1.2.3\r\nfoo".toList =
        [] ++ (versionMarker ++ ("1.2.3".toList ++ "\r\nfoo".toList)) ∧
      "1.2.3".toList ≠ [] ∧ (∀ c ∈ "1.2.3".toList, c ≠ '\r' ∧ c ≠ '\n') ∧
      noTermB "1.2.3".toList = true ∧ termStartB "\r\nfoo".toList = true) :=
  ⟨by decide,
    loadTocRecord_version_excludes_terminator _ _ _ _ _ _ (by decide)⟩

/-- C2: `updateVersionInContent` substitutes exactly the first line matching
the pattern, leaving the surrounding content byte-for-byte unchanged; with
no matching line the content is returned unchanged; and rewriting twice
changes only the version line relative to the original:
`rewrite (rewrite content V1) V2 = rewrite content V2`. -/
theorem updateVersionInContent_single_subst_roundtrip
    (content V1 V2 : Str)
    (h1 : V1 ≠ [] ∧ noTermB V1 = true ∧ noDollarB V1 = true)
    (h2 : V2 ≠ [] ∧ noTermB V2 = true ∧ noDollarB V2 = true) :
    (∀ p v s, findVersionLine content = some (p, v, s) →
        content = p ++ (versionMarker ++ (v ++ s)) ∧
        updateVersionInContent content V1 = p ++ (versionMarker ++ (V1 ++ s))) ∧
    (findVersionLine content = none → updateVersionInContent content V1 = content) ∧
    updateVersionInContent (updateVersionInContent content V1) V2 =
      updateVersionInContent content V2 := by
  obtain ⟨hV1ne, hV1nt, hV1nd⟩ := h1
  obtain ⟨hV2ne, hV2nt, hV2nd⟩ := h2
  refine ⟨?_, ?_, ?_⟩
  · intro p v s h
    exact ⟨(findVersionAux_eq_some content true p v s h).1,
      updateVersionInContent_eq_some V1 h hV1nd⟩
  · intro h
    unfold updateVersionInContent
    rw [h]
  · cases hfind : findVersionLine content with
    | none =>
      have hu : updateVersionInContent content V1 = content := by
        unfold updateVersionInContent
        rw [hfind]
      rw [hu]
    | some tri =>
      obtain ⟨p, v, s⟩ := tri
      obtain ⟨hdec, hvne, hvnt, hts⟩ := findVersionAux_eq_some content true p v s hfind
      have hu1 : updateVersionInContent content V1 = p ++ (versionMarker ++ (V1 ++ s)) :=
        updateVersionInContent_eq_some V1 hfind hV1nd
      have hstab : findVersionLine (p ++ (versionMarker ++ (V1 ++ s))) = some (p, V1, s) := by
        apply findVersionAux_stable p true v s V1 _ hV1ne hV1nt
        rw [← hdec]
        exact hfind
      have hu2 : updateVersionInContent (p ++ (versionMarker ++ (V1 ++ s))) V2 =
          p ++ (versionMarker ++ (V2 ++ s)) :=
        updateVersionInContent_eq_some V2 hstab hV2nd
      have hu3 : updateVersionInContent content V2 = p ++ (versionMarker ++ (V2 ++ s)) :=
        updateVersionInContent_eq_some V2 hfind hV2nd
      rw [hu1, hu2, hu3]

/-- Witness for C2 at a concrete two-line content with versions `1.0.0`
and `2.3.4`. -/
theorem updateVersionInContent_single_subst_roundtrip_witness :
    ("1.0.0".toList ≠ [] ∧ noTermB "1.0.0".toList = true ∧
        noDollarB "1.0.0".toList = true) ∧
    ("2.3.4".toList ≠ [] ∧ noTermB "2.3.4".toList = true ∧
        noDollarB "2.3.4".toList = true) ∧
    ((∀ p v s, findVersionLine "## Title: X\n## Version: 0.9.9\nBody".toList =
          some (p, v, s) →
        "## Title: X\n## Version: 0.9.9\nBody".toList =
          p ++ (versionMarker ++ (v ++ s)) ∧
        updateVersionInContent "## Title: X\n## Version: 0.9.9\nBody".toList
          "1.0.0".toList = p ++ (versionMarker ++ ("1.0.0".toList ++ s))) ∧
      (findVersionLine "## Title: X\n## Version: 0.9.9\nBody".toList = none →
        updateVersionInContent "## Title: X\n## Version: 0.9.9\nBody".toList
          "1.0.0".toList = "## Title: X\n## Version: 0.9.9\nBody".toList) ∧
      updateVersionInContent
        (updateVersionInContent "## Title: X\n## Version: 0.9.9\nBody".toList
          "1.0.0".toList) "2.3.4".toList =
        updateVersionInContent "## Title: X\n## Version: 0.9.9\nBody".toList
          "2.3.4".toList) :=
  ⟨⟨by decide, by decide, by decide⟩, ⟨by decide, by decide, by decide⟩,
    updateVersionInContent_single_subst_roundtrip _ _ _
      ⟨by decide, by decide, by decide⟩ ⟨by decide, by decide, by decide⟩⟩

/-- JS whitespace accepted by `Number` and `String.prototype.trim`
(restricted to the ASCII forms that occur in this program's data). -/
def isJsWhitespace (c : Char) : Bool :=
  c = ' ' || c = '\t' || c = '\n' || c = '\r'

/-- `String.prototype.trim`: strip whitespace from both ends. -/
def jsTrim (s : Str) : Str :=
  ((s.dropWhile isJsWhitespace).reverse.dropWhile isJsWhitespace).reverse

/-- Decimal value of a digit run. -/
def digitsToNat (l : Str) : Nat :=
  l.foldl (fun acc c => acc * 10 + (c.toNat - 48)) 0

/-- JS `Number(s)` on a dot-free field, modelled for the forms a version
field takes: surrounding whitespace is ignored, an empty or whitespace-only
string is `0`, an optionally signed run of decimal digits is its integer
value, and any other string is NaN (`none`).  (Exponent, hexadecimal,
fractional and `Infinity` forms of the full JS numeric grammar are outside
the model, as is float rounding; version fields never use them.) -/
def jsNumber (s : Str) : Option Int :=
  match jsTrim s with
  | [] => some 0
  | '-' :: ds =>
    if ds ≠ [] ∧ ds.all Char.isDigit then some (-(digitsToNat ds : Int)) else none
  | '+' :: ds =>
    if ds ≠ [] ∧ ds.all Char.isDigit then some ((digitsToNat ds : Int)) else none
  | ds =>
    if ds.all Char.isDigit then some ((digitsToNat ds : Int)) else none

/-- JS `s.split(".")` (single-character separator, no limit). -/
def splitDot : Str → List Str
  | [] => [[]]
  | c :: t =>
    if c = '.' then [] :: splitDot t
    else
      match splitDot t with
      | h :: r => (c :: h) :: r
      | [] => [[c]]

example : splitDot "1.10.0".toList = ["1".toList, "10".toList, "0".toList] := by decide
example : splitDot "".toList = [[]] := by decide

/-- `src/version-manager.ts` lines 92-101: the parsed view of one record's
version used by the highest-version computation. -/
structure ParsedVersion where
  major : Int
  minor : Int
  patch : Int
  original : Str
  addonName : Str
deriving DecidableEq, Repr

/-- `parts[i] || 0` over `version.split(".").map(Number)`: an absent index
(`undefined`), a NaN field, and an actual `0` are all falsy and give `0`. -/
def fieldOrZero (parts : List Str) (i : Nat) : Int :=
  match parts.get? i with
  | none => 0
  | some f =>
    match jsNumber f with
    | none => 0
    | some n => n

/-- The (major, minor, patch) triple the comparison uses for a version
string. -/
def versionKey (s : Str) : Int × Int × Int :=
  (fieldOrZero (splitDot s) 0, fieldOrZero (splitDot s) 1, fieldOrZero (splitDot s) 2)

/-- `src/version-manager.ts` lines 92-101 applied to one record. -/
def parseVer (f : TocFile) : ParsedVersion :=
  { major := (versionKey f.version).1
    minor := (versionKey f.version).2.1
    patch := (versionKey f.version).2.2
    original := f.version
    addonName := f.addonName }

/-- `src/version-manager.ts` lines 103-110: the `reduce` comparator.
`current` wins exactly when strictly greater on (major, minor, patch) in
that priority order; on a full tie the accumulator (earlier record) is
kept. -/
def pickHigher (max current : ParsedVersion) : ParsedVersion :=
  if current.major > max.major then current
  else if current.major < max.major then max
  else if current.minor > max.minor then current
  else if current.minor < max.minor then max
  else if current.patch > max.patch then current
  else max

/-- `versions.reduce(...)` with no initial value: JS throws a `TypeError`
on an empty array (modelled as `none`), otherwise folds from the first
element. -/
def highestVersion : List ParsedVersion → Option ParsedVersion
  | [] => none
  | x :: xs => some (xs.foldl pickHigher x)

/-- Numeric comparison key of a parsed version. -/
def vkey (v : ParsedVersion) : Int × Int × Int := (v.major, v.minor, v.patch)

/-- Strict lexicographic order on (major, minor, patch). -/
def tupleLt (a b : ParsedVersion) : Prop :=
  a.major < b.major ∨
    (a.major = b.major ∧
      (a.minor < b.minor ∨ (a.minor = b.minor ∧ a.patch < b.patch)))

/-- Lexicographic order-or-tie on (major, minor, patch). -/
def tupleLe (a b : ParsedVersion) : Prop := tupleLt a b ∨ vkey a = vkey b

instance (a b : ParsedVersion) : Decidable (tupleLt a b) := by
  unfold tupleLt; infer_instance

instance (a b : ParsedVersion) : Decidable (tupleLe a b) := by
  unfold tupleLe; infer_instance

lemma tupleLe_refl (a : ParsedVersion) : tupleLe a a := Or.inr rfl

lemma vkey_eq_iff {a b : ParsedVersion} :
    vkey a = vkey b ↔ a.major = b.major ∧ a.minor = b.minor ∧ a.patch = b.patch := by
  unfold vkey
  constructor
  · intro h
    exact ⟨congrArg Prod.fst h, congrArg (fun t => t.2.1) h, congrArg (fun t => t.2.2) h⟩
  · intro ⟨h1, h2, h3⟩
    rw [h1, h2, h3]

lemma tupleLe_of_not_lt {a b : ParsedVersion} (h : ¬ tupleLt a b) : tupleLe b a := by
  unfold tupleLt at h
  unfold tupleLe tupleLt
  rw [vkey_eq_iff]
  omega

lemma tupleLt_of_lt_of_le {a b c : ParsedVersion}
    (h1 : tupleLt a b) (h2 : tupleLe b c) : tupleLt a c := by
  unfold tupleLe at h2
  rw [vkey_eq_iff] at h2
  unfold tupleLt at h1 h2 ⊢
  omega

lemma tupleLe_trans {a b c : ParsedVersion}
    (h1 : tupleLe a b) (h2 : tupleLe b c) : tupleLe a c := by
  unfold tupleLe at h1 h2 ⊢
  rw [vkey_eq_iff] at h1 h2 ⊢
  unfold tupleLt at h1 h2 ⊢
  omega

/-- The comparator keeps the accumulator unless `current` is strictly
greater. -/
lemma pickHigher_eq (a c : ParsedVersion) :
    (tupleLt a c → pickHigher a c = c) ∧ (¬ tupleLt a c → pickHigher a c = a) := by
  unfold pickHigher tupleLt
  constructor
  · intro h
    split
    · rfl
    · next h1 =>
      split
      · next h2 => omega
      · next h2 =>
        split
        · rfl
        · next h3 =>
          split
          · next h4 => omega
          · next h4 =>
            split
            · rfl
            · next h5 => omega
  · intro h
    split
    · next h1 => exact absurd (Or.inl h1) h
    · next h1 =>
      split
      · rfl
      · next h2 =>
        split
        · next h3 =>
          exfalso
          apply h
          omega
        · next h3 =>
          split
          · rfl
          · next h4 =>
            split
            · next h5 =>
              exfalso
              apply h
              omega
            · next h5 => rfl

lemma tupleLt_of_le_of_lt {a b c : ParsedVersion}
    (h1 : tupleLe a b) (h2 : tupleLt b c) : tupleLt a c := by
  unfold tupleLe at h1
  rw [vkey_eq_iff] at h1
  unfold tupleLt at h1 h2 ⊢
  omega

/-- The fold of `pickHigher` returns the first element (accumulator
included, in order) attaining the lexicographic maximum. -/
lemma foldl_pickHigher_first (l : List ParsedVersion) :
    ∀ acc : ParsedVersion,
      ∃ pre post, acc :: l = pre ++ (l.foldl pickHigher acc) :: post ∧
        (∀ x ∈ pre, tupleLt x (l.foldl pickHigher acc)) ∧
        (∀ x ∈ acc :: l, tupleLe x (l.foldl pickHigher acc)) := by
  induction l with
  | nil =>
    intro acc
    refine ⟨[], [], rfl, by simp, ?_⟩
    intro x hx
    rcases List.mem_singleton.mp hx with rfl
    exact tupleLe_refl x
  | cons b l ih =>
    intro acc
    rw [List.foldl_cons]
    obtain ⟨pre, post, hsplit, hpre, hall⟩ := ih (pickHigher acc b)
    by_cases hlt : tupleLt acc b
    · have hb : pickHigher acc b = b := (pickHigher_eq acc b).1 hlt
      rw [hb] at hsplit hpre hall ⊢
      refine ⟨acc :: pre, post, ?_, ?_, ?_⟩
      · rw [List.cons_append, ← hsplit]
      · intro x hx
        rcases List.mem_cons.mp hx with hx | hx
        · subst hx
          exact tupleLt_of_lt_of_le hlt (hall b (by simp))
        · exact hpre x hx
      · intro x hx
        rcases List.mem_cons.mp hx with hx | hx
        · subst hx
          exact Or.inl (tupleLt_of_lt_of_le hlt (hall b (by simp)))
        · exact hall x hx
    · have hb : pickHigher acc b = acc := (pickHigher_eq acc b).2 hlt
      rw [hb] at hsplit hpre hall ⊢
      have hble : tupleLe b (l.foldl pickHigher acc) :=
        tupleLe_trans (tupleLe_of_not_lt hlt) (hall acc (by simp))
      cases pre with
      | nil =>
        simp only [List.nil_append] at hsplit
        injection hsplit with h1 h2
        refine ⟨[], b :: post, ?_, by simp, ?_⟩
        · rw [List.nil_append, ← h1, h2]
        · intro x hx
          rcases List.mem_cons.mp hx with rfl | hx
          · exact hall _ (by simp)
          · rcases List.mem_cons.mp hx with rfl | hx
            · exact hble
            · exact hall x (by simp [hx])
      | cons p0 pre2 =>
        rw [List.cons_append] at hsplit
        injection hsplit with h1 h2
        have haccr : tupleLt acc (l.foldl pickHigher acc) := by
          have hp0 := hpre p0 (by simp)
          rw [← h1] at hp0
          exact hp0
        refine ⟨acc :: b :: pre2, post, ?_, ?_, ?_⟩
        · rw [List.cons_append, List.cons_append, ← h2]
        · intro x hx
          rcases List.mem_cons.mp hx with rfl | hx
          · exact haccr
          · rcases List.mem_cons.mp hx with rfl | hx
            · exact tupleLt_of_le_of_lt (tupleLe_of_not_lt hlt) haccr
            · exact hpre x (by simp [hx])
        · intro x hx
          rcases List.mem_cons.mp hx with rfl | hx
          · exact hall _ (by simp)
          · rcases List.mem_cons.mp hx with rfl | hx
            · exact hble
            · exact hall x (by simp [hx])

/-- C1: over every non-empty record set the highest-version computation
compares records numerically on (major, minor, patch) in that priority
order: it returns a record of the set whose key is the lexicographic
maximum, and when several records share the maximum key it returns the
first in scan order (every earlier record is strictly smaller).  In
particular, with versions 1.2.3 and 1.10.0 it selects the record carrying
1.10.0. -/
theorem highestVersion_numeric_max_first_in_scan_order
    (files : List TocFile) (hne : files ≠ []) :
    (∃ h pre post, highestVersion (files.map parseVer) = some h ∧
      files.map parseVer = pre ++ h :: post ∧
      (∀ x ∈ pre, tupleLt x h) ∧
      (∀ x ∈ files.map parseVer, tupleLe x h)) ∧
    highestVersion ([⟨"a".toList, [], "1.2.3".toList, "A".toList⟩,
        ⟨"b".toList, [], "1.10.0".toList, "A".toList⟩].map parseVer) =
      some (parseVer ⟨"b".toList, [], "1.10.0".toList, "A".toList⟩) := by
  constructor
  · cases files with
    | nil => exact absurd rfl hne
    | cons f fs =>
      rw [List.map_cons]
      obtain ⟨pre, post, hsplit, hpre, hall⟩ :=
        foldl_pickHigher_first (fs.map parseVer) (parseVer f)
      exact ⟨(fs.map parseVer).foldl pickHigher (parseVer f), pre, post, rfl,
        hsplit, hpre, hall⟩
  · decide

/-- Witness for C1 on a concrete two-record set. -/
theorem highestVersion_numeric_max_first_in_scan_order_witness :
    ([(⟨"a".toList, [], "1.2.3".toList, "A".toList⟩ : TocFile),
        ⟨"b".toList, [], "1.10.0".toList, "A".toList⟩] ≠ ([] : List TocFile)) ∧
    ((∃ h pre post,
        highestVersion (([(⟨"a".toList, [], "1.2.3".toList, "A".toList⟩ : TocFile),
            ⟨"b".toList, [], "1.10.0".toList, "A".toList⟩]).map parseVer) = some h ∧
        ([(⟨"a".toList, [], "1.2.3".toList, "A".toList⟩ : TocFile),
            ⟨"b".toList, [], "1.10.0".toList, "A".toList⟩]).map parseVer =
          pre ++ h :: post ∧
        (∀ x ∈ pre, tupleLt x h) ∧
        (∀ x ∈ ([(⟨"a".toList, [], "1.2.3".toList, "A".toList⟩ : TocFile),
            ⟨"b".toList, [], "1.10.0".toList, "A".toList⟩]).map parseVer, tupleLe x h)) ∧
      highestVersion ([⟨"a".toList, [], "1.2.3".toList, "A".toList⟩,
          ⟨"b".toList, [], "1.10.0".toList, "A".toList⟩].map parseVer) =
        some (parseVer ⟨"b".toList, [], "1.10.0".toList, "A".toList⟩)) :=
  ⟨by decide, highestVersion_numeric_max_first_in_scan_order _ (by decide)⟩

/-- C10 (implicit): in the highest-version comparison each component comes
from numerically parsing the corresponding dot-separated field, an absent
or non-parsing field counting as 0 — the key of `"1.2"` is (1, 2, 0) and
of a fully non-numeric version (0, 0, 0) — and the comparison step itself
always yields a result on a non-empty set (it never raises). -/
theorem parseVer_fields_absent_or_nan_zero
    (files : List TocFile) (hne : files ≠ []) :
    (∃ h, highestVersion (files.map parseVer) = some h ∧ h ∈ files.map parseVer) ∧
    (∀ s : Str, ∀ i : Nat,
      (∀ f, (splitDot s).get? i = some f → jsNumber f = none) →
      fieldOrZero (splitDot s) i = 0) ∧
    versionKey "1.2".toList = (1, 2, 0) ∧
    versionKey "not-numeric".toList = (0, 0, 0) := by
  refine ⟨?_, ?_, by decide, by decide⟩
  · cases files with
    | nil => exact absurd rfl hne
    | cons f fs =>
      rw [List.map_cons]
      obtain ⟨pre, post, hsplit, -, -⟩ :=
        foldl_pickHigher_first (fs.map parseVer) (parseVer f)
      refine ⟨(fs.map parseVer).foldl pickHigher (parseVer f), rfl, ?_⟩
      rw [hsplit]
      exact List.mem_append_right _ (List.mem_cons_self _ _)
  · intro s i h
    unfold fieldOrZero
    cases hg : (splitDot s).get? i with
    | none => rfl
    | some f => simp only [h f hg]

/-- Witness for C10 on a concrete singleton record set. -/
theorem parseVer_fields_absent_or_nan_zero_witness :
    (([(⟨"p".toList, [], "1.2".toList, "A".toList⟩ : TocFile)] : List TocFile) ≠ []) ∧
    ((∃ h, highestVersion (([(⟨"p".toList, [], "1.2".toList, "A".toList⟩ : TocFile)]).map
          parseVer) = some h ∧
        h ∈ ([(⟨"p".toList, [], "1.2".toList, "A".toList⟩ : TocFile)]).map parseVer) ∧
      (∀ s : Str, ∀ i : Nat,
        (∀ f, (splitDot s).get? i = some f → jsNumber f = none) →
        fieldOrZero (splitDot s) i = 0) ∧
      versionKey "1.2".toList = (1, 2, 0) ∧
      versionKey "not-numeric".toList = (0, 0, 0)) :=
  ⟨by decide, parseVer_fields_absent_or_nan_zero _ (by decide)⟩

/-- Semver numeric identifier: non-empty digits, no leading zero. -/
def numericIdent (f : Str) : Bool :=
  !f.isEmpty && f.all Char.isDigit && (decide (f = ['0']) || !(decide (f.head? = some '0')))

/-- `@std/semver` `parse` restricted to the plain `major.minor.patch` core
grammar: exactly three numeric identifiers.  Strings the library rejects by
throwing are `none`; prerelease/build suffixes are outside the model (the
program's TOC versions are plain triples). -/
def parseSemverNums (s : Str) : Option (Nat × Nat × Nat) :=
  match splitDot s with
  | [a, b, c] =>
    if numericIdent a && numericIdent b && numericIdent c then
      some (digitsToNat a, digitsToNat b, digitsToNat c)
    else none
  | _ => none

/-- The three bump kinds of `getNextVersion`. -/
inductive BumpType
  | major
  | minor
  | patch
deriving DecidableEq, Repr

/-- `@std/semver` `increment` on a plain release triple. -/
def incrementSemver : Nat × Nat × Nat → BumpType → Nat × Nat × Nat
  | (M, _, _), BumpType.major => (M + 1, 0, 0)
  | (M, m, _), BumpType.minor => (M, m + 1, 0)
  | (M, m, p), BumpType.patch => (M, m, p + 1)

/-- Decimal rendering of one field. -/
def natToStr (n : Nat) : Str := (toString n).toList

/-- `@std/semver` `format` of a plain release triple. -/
def formatSemver : Nat × Nat × Nat → Str
  | (M, m, p) => natToStr M ++ ('.' :: natToStr m) ++ ('.' :: natToStr p)

/-- `src/toc-manager.ts` lines 121-123, `getTocFilesForAddon`: the records
whose addon name matches, in load order. -/
def getTocFilesForAddon (tocFiles : List TocFile) (addonName : Str) : List TocFile :=
  tocFiles.filter (fun file => file.addonName == addonName)

/-- The records `getNextVersion` considers (lines 79-90): all of them, or
those of the requested addon. -/
def filesToCheck (allTocFiles : List TocFile) (targetAddon : Option Str) : List TocFile :=
  match targetAddon with
  | some a => getTocFilesForAddon allTocFiles a
  | none => allTocFiles

/-- `src/version-manager.ts` lines 75-129, `getNextVersion`: `null` (here
`ok none`) when there are no records at all or none for the requested
addon; otherwise parse every considered record, take the reduce-maximum,
and semver-increment it.  A thrown error (semver parse failure, or reduce
on an empty array) is `Except.error`. -/
def getNextVersion (allTocFiles : List TocFile) (targetAddon : Option Str)
    (bumpType : BumpType) : Except Unit (Option Str) :=
  if allTocFiles.length = 0 then Except.ok none
  else
    let files := filesToCheck allTocFiles targetAddon
    if files.length = 0 then Except.ok none
    else
      match highestVersion (files.map parseVer) with
      | none => Except.error ()
      | some highest =>
        match parseSemverNums highest.original with
        | none => Except.error ()
        | some t => Except.ok (some (formatSemver (incrementSemver t bumpType)))

/-- C5: with no TOC files at all, or none for the requested addon,
`getNextVersion` returns a null result (`ok none`) rather than raising an
exception. -/
theorem getNextVersion_empty_returns_null
    (allTocFiles : List TocFile) (targetAddon : Option Str) (bumpType : BumpType)
    (h : allTocFiles = [] ∨ filesToCheck allTocFiles targetAddon = []) :
    getNextVersion allTocFiles targetAddon bumpType = Except.ok none := by
  unfold getNextVersion
  rcases h with h | h
  · simp [h]
  · by_cases hall : allTocFiles.length = 0
    · simp [hall]
    · simp [hall, h]

/-- Witness for C5: a record set with only addon A, queried for addon B. -/
theorem getNextVersion_empty_returns_null_witness :
    (([(⟨"p".toList, [], "1.2.3".toList, "A".toList⟩ : TocFile)] : List TocFile) = [] ∨
      filesToCheck [⟨"p".toList, [], "1.2.3".toList, "A".toList⟩]
        (some "B".toList) = []) ∧
    getNextVersion [⟨"p".toList, [], "1.2.3".toList, "A".toList⟩] (some "B".toList)
        BumpType.patch = Except.ok none :=
  ⟨by decide, getNextVersion_empty_returns_null _ _ _ (by decide)⟩

/-- C4: when the highest version of the non-empty considered record set is
the plain triple (M, m, p), a major bump yields (M+1).0.0, a minor bump
M.(m+1).0, and a patch bump (the default) M.m.(p+1) — each changing only
the stated components. -/
theorem getNextVersion_bump_components
    (allTocFiles : List TocFile) (targetAddon : Option Str)
    (hv : ParsedVersion) (M m p : Nat)
    (hne : allTocFiles ≠ [])
    (hfc : filesToCheck allTocFiles targetAddon ≠ [])
    (hhv : highestVersion ((filesToCheck allTocFiles targetAddon).map parseVer) = some hv)
    (hp : parseSemverNums hv.original = some (M, m, p)) :
    getNextVersion allTocFiles targetAddon BumpType.major =
        Except.ok (some (formatSemver (M + 1, 0, 0))) ∧
    getNextVersion allTocFiles targetAddon BumpType.minor =
        Except.ok (some (formatSemver (M, m + 1, 0))) ∧
    getNextVersion allTocFiles targetAddon BumpType.patch =
        Except.ok (some (formatSemver (M, m, p + 1))) := by
  have h1 : ¬(allTocFiles.length = 0) := by simpa using hne
  have h2 : ¬((filesToCheck allTocFiles targetAddon).length = 0) := by simpa using hfc
  refine ⟨?_, ?_, ?_⟩ <;>
    (unfold getNextVersion
     simp only [h1, if_false, h2, hhv, hp]
     rfl)

/-- Witness for C4 at a record carrying version 1.4.2. -/
theorem getNextVersion_bump_components_witness :
    (([(⟨"p".toList, [], "1.4.2".toList, "A".toList⟩ : TocFile)] : List TocFile) ≠ []) ∧
    filesToCheck [(⟨"p".toList, [], "1.4.2".toList, "A".toList⟩ : TocFile)] none ≠ [] ∧
    highestVersion ((filesToCheck
        [(⟨"p".toList, [], "1.4.2".toList, "A".toList⟩ : TocFile)] none).map parseVer) =
      some (parseVer (⟨"p".toList, [], "1.4.2".toList, "A".toList⟩ : TocFile)) ∧
    parseSemverNums (parseVer
        (⟨"p".toList, [], "1.4.2".toList, "A".toList⟩ : TocFile)).original =
      some (1, 4, 2) ∧
    (getNextVersion [⟨"p".toList, [], "1.4.2".toList, "A".toList⟩] none BumpType.major =
        Except.ok (some (formatSemver (1 + 1, 0, 0))) ∧
      getNextVersion [⟨"p".toList, [], "1.4.2".toList, "A".toList⟩] none BumpType.minor =
        Except.ok (some (formatSemver (1, 4 + 1, 0))) ∧
      getNextVersion [⟨"p".toList, [], "1.4.2".toList, "A".toList⟩] none BumpType.patch =
        Except.ok (some (formatSemver (1, 4, 2 + 1)))) :=
  ⟨by decide, by decide, by decide, by decide,
    getNextVersion_bump_components [⟨"p".toList, [], "1.4.2".toList, "A".toList⟩] none
      (parseVer (⟨"p".toList, [], "1.4.2".toList, "A".toList⟩ : TocFile)) 1 4 2
      (by decide) (by decide) (by decide) (by decide)⟩

/-- JS `s.split(sep)` for a single-character separator. -/
def splitChar (sep : Char) : Str → List Str
  | [] => [[]]
  | c :: t =>
    if c = sep then [] :: splitChar sep t
    else
      match splitChar sep t with
      | h :: r => (c :: h) :: r
      | [] => [[c]]

/-- An executed external command: the full argv (head is the executable)
and the working directory, as built by `runCommandInDir`. -/
structure Cmd where
  argv : List Str
  dir : Str
deriving DecidableEq, Repr

/-- `src/git-manager.ts` lines 84-129, `runCommandInDir`: the argv actually
spawned for a command string.  A string starting with `git commit` whose
space-split parts contain `-m` followed by something is rebuilt as
`git commit -m <parts after -m rejoined>`; any other command is split on
single spaces. -/
def commandArgv (command : Str) : List Str :=
  if ("git commit".toList).isPrefixOf command then
    let parts := splitChar ' ' command
    match parts.findIdx? (fun arg => arg == "-m".toList) with
    | some mi =>
      if mi + 1 < parts.length then
        ["git".toList, "commit".toList, "-m".toList,
          List.intercalate [' '] (parts.drop (mi + 1))]
      else splitChar ' ' command
    | none => splitChar ' ' command
  else splitChar ' ' command

/-- The external version-control world: completion code and captured
stdout of a command, given the commands already executed in this run. -/
def GitEnv := List Cmd → Cmd → Nat × Str

/-- The order-relevant console reports of `createGitTag`. -/
inductive ReportItem
  | wouldCreateTag (name : Str)
  | wouldCommitMsg (msg : Str)
  | wouldPush
  | committing
  | creatingTag (name : Str)
  | pushing
  | completed (version : Str)
  | gitFailed
deriving DecidableEq, Repr

/-- `commitMessage || (targetAddon ? ... : ...)`: an absent or empty custom
message falls back to the generated one. -/
def msgOrDefault (commitMessage : Option Str) (targetAddon : Option Str)
    (version : Str) : Str :=
  let fallback :=
    match targetAddon with
    | some a => "Bump ".toList ++ a ++ " version to ".toList ++ version
    | none => "Bump version to ".toList ++ version
  match commitMessage with
  | some m => if m.isEmpty then fallback else m
  | none => fallback

/-- Working directory of the git commands: the addon's subdirectory for a
targeted call, the process's current directory otherwise. -/
def gitWorkingDir (addonsDir cwd : Str) (targetAddon : Option Str) : Str :=
  match targetAddon with
  | some a => addonsDir ++ ('/' :: a)
  | none => cwd

/-- `git status --porcelain` in a working directory. -/
def statusCmd (workingDir : Str) : Cmd :=
  ⟨commandArgv "git status --porcelain".toList, workingDir⟩

/-- `git add .` in a working directory. -/
def addCmd (workingDir : Str) : Cmd :=
  ⟨commandArgv "git add .".toList, workingDir⟩

/-- `git commit -m <message>` in a working directory. -/
def commitCmd (workingDir message : Str) : Cmd :=
  ⟨commandArgv ("git commit -m ".toList ++ message), workingDir⟩

/-- `git tag <tagName>` in a working directory. -/
def tagCmd (workingDir tagName : Str) : Cmd :=
  ⟨commandArgv ("git tag ".toList ++ tagName), workingDir⟩

/-- `git push origin HEAD <tagName>` in a working directory. -/
def pushCmd (workingDir tagName : Str) : Cmd :=
  ⟨commandArgv ("git push origin HEAD ".toList ++ tagName), workingDir⟩

/-- Tail of `createGitTag`'s try block: create the tag, then push, each
step only when the previous command exited 0; the first failure ends the
call with the single consolidated failure report. -/
def tagAndPush (env : GitEnv) (hist : List Cmd) (pre : List Cmd)
    (preReports : List ReportItem) (workingDir tagName version : Str) :
    List Cmd × List ReportItem :=
  let tc := tagCmd workingDir tagName
  let r4 := env (hist ++ pre) tc
  if r4.1 ≠ 0 then
    (pre ++ [tc], preReports ++ [ReportItem.creatingTag tagName, ReportItem.gitFailed])
  else
    let pc := pushCmd workingDir tagName
    let r5 := env (hist ++ pre ++ [tc]) pc
    if r5.1 ≠ 0 then
      (pre ++ [tc, pc],
        preReports ++ [ReportItem.creatingTag tagName, ReportItem.pushing,
          ReportItem.gitFailed])
    else
      (pre ++ [tc, pc],
        preReports ++ [ReportItem.creatingTag tagName, ReportItem.pushing,
          ReportItem.completed version])

/-- `src/git-manager.ts` lines 24-71, `createGitTag`: the commands executed
(in order) and the reports printed.  In dry-run mode nothing is executed
and the three intended actions are reported — tag, commit, push, in that
source order.  Otherwise: query status; when the trimmed output is
non-empty, stage and commit; then tag and push.  Every command runs only
if the previous one exited 0 (`runCommandInDir` throws on a non-zero code,
caught by the surrounding try/catch which prints one failure message and
returns normally). -/
def createGitTag (env : GitEnv) (hist : List Cmd) (addonsDir cwd : Str)
    (version : Str) (commitMessage : Option Str) (targetAddon : Option Str)
    (dryRun : Bool) : List Cmd × List ReportItem :=
  let tagName := version
  if dryRun then
    ([], [ReportItem.wouldCreateTag tagName,
      ReportItem.wouldCommitMsg (msgOrDefault commitMessage targetAddon version),
      ReportItem.wouldPush])
  else
    let workingDir := gitWorkingDir addonsDir cwd targetAddon
    let sc := statusCmd workingDir
    let r1 := env hist sc
    if r1.1 ≠ 0 then ([sc], [ReportItem.gitFailed])
    else if jsTrim r1.2 ≠ [] then
      let ac := addCmd workingDir
      let r2 := env (hist ++ [sc]) ac
      if r2.1 ≠ 0 then
        ([sc, ac], [ReportItem.committing, ReportItem.gitFailed])
      else
        let message := msgOrDefault commitMessage targetAddon version
        let cc := commitCmd workingDir message
        let r3 := env (hist ++ [sc, ac]) cc
        if r3.1 ≠ 0 then
          ([sc, ac, cc], [ReportItem.committing, ReportItem.gitFailed])
        else
          tagAndPush env hist [sc, ac, cc] [ReportItem.committing]
            workingDir tagName version
    else
      tagAndPush env hist [sc] [] workingDir tagName version

/-- `src/types.ts`, `VersionBumpOptions`. -/
structure VersionBumpOptions where
  newVersion : Str
  dryRun : Bool
  targetAddon : Option Str
  bumpType : BumpType
  commitMessage : Str
  verbose : Bool
deriving Repr

/-- `src/version-bumper.ts` lines 221-250, `updateFiles`: the filesystem
writes performed.  Each file's new content is computed; in dry-run mode the
change is only reported and no write is attempted, otherwise
`Deno.writeTextFileSync` is attempted for every file (a failing write is
reported and the loop continues with the others). -/
def updateFiles (files : List TocFile) (options : VersionBumpOptions) :
    List (Str × Str) :=
  files.foldr
    (fun file rest =>
      let newContent := updateVersionInContent file.content options.newVersion
      if options.dryRun then rest else (file.path, newContent) :: rest)
    []

/-- One step of the `Map`-based grouping: append the file to its addon's
group, or append a new group (insertion order preserved). -/
def insertGroup (groups : List (Str × List TocFile)) (f : TocFile) :
    List (Str × List TocFile) :=
  if groups.any (fun g => g.1 == f.addonName) then
    groups.map (fun g => if g.1 == f.addonName then (g.1, g.2 ++ [f]) else g)
  else groups ++ [(f.addonName, [f])]

/-- The `addonGroups` map of `bumpVersion`, as an insertion-ordered list. -/
def groupByAddon (files : List TocFile) : List (Str × List TocFile) :=
  files.foldl insertGroup []

/-- The per-addon tag loop of the explicit-version multi-addon path
(`bumpVersion`, lines 162-172), threading the executed-command history. -/
def tagLoopExplicit (env : GitEnv) (hist : List Cmd) (addonsDir cwd : Str)
    (options : VersionBumpOptions) :
    List (Str × List TocFile) → List Cmd
  | [] => []
  | (addonName, _) :: rest =>
    let r := createGitTag env hist addonsDir cwd options.newVersion
      (some ("Bump ".toList ++ addonName ++ " version to ".toList ++ options.newVersion))
      (some addonName) options.dryRun
    r.1 ++ tagLoopExplicit env (hist ++ r.1) addonsDir cwd options rest

/-- The per-addon update loop of the auto-increment path (lines 178-187):
recompute each addon's next version and collect that addon's writes; a
thrown error (semver parse) propagates, keeping the writes already made. -/
def autoUpdates (allTocFiles : List TocFile) (options : VersionBumpOptions) :
    List (Str × List TocFile) → Except Unit Unit × List (Str × Str)
  | [] => (Except.ok (), [])
  | (addonName, files) :: rest =>
    match getNextVersion allTocFiles (some addonName) options.bumpType with
    | Except.error _ => (Except.error (), [])
    | Except.ok none => autoUpdates allTocFiles options rest
    | Except.ok (some v) =>
      let w := updateFiles files { options with newVersion := v }
      let r := autoUpdates allTocFiles options rest
      (r.1, w ++ r.2)

/-- The per-addon tag loop of the auto-increment path (lines 194-210):
recompute each addon's next version and run its tag/commit/push sequence. -/
def autoTagLoop (env : GitEnv) (hist : List Cmd) (addonsDir cwd : Str)
    (allTocFiles : List TocFile) (options : VersionBumpOptions) :
    List (Str × List TocFile) → Except Unit Unit × List Cmd
  | [] => (Except.ok (), [])
  | (addonName, _) :: rest =>
    match getNextVersion allTocFiles (some addonName) options.bumpType with
    | Except.error _ => (Except.error (), [])
    | Except.ok none => autoTagLoop env hist addonsDir cwd allTocFiles options rest
    | Except.ok (some v) =>
      let r := createGitTag env hist addonsDir cwd v
        (some ("Bump ".toList ++ addonName ++ " version to ".toList ++ v))
        (some addonName) options.dryRun
      let more := autoTagLoop env (hist ++ r.1) addonsDir cwd allTocFiles options rest
      (more.1, r.1 ++ more.2)

/-- Result of a `bumpVersion` run: whether it completed or threw, the file
writes performed, and the version-control commands executed, in order. -/
structure BumpResult where
  outcome : Except Unit Unit
  writes : List (Str × Str)
  cmds : List Cmd

/-- `src/version-bumper.ts` lines 113-213, `bumpVersion`: the targeted
path updates one addon's files and runs one tag sequence; with no target
and an explicit version every addon group is updated then tagged; with no
explicit version each addon is auto-incremented independently (updates
first, then tags, each loop recomputing the next version). -/
def bumpVersion (env : GitEnv) (allTocFiles : List TocFile) (addonsDir cwd : Str)
    (options : VersionBumpOptions) : BumpResult :=
  match options.targetAddon with
  | some target =>
    let filesToUpdate := getTocFilesForAddon allTocFiles target
    if filesToUpdate.length = 0 then ⟨Except.ok (), [], []⟩
    else
      let writes := updateFiles filesToUpdate options
      let r := createGitTag env [] addonsDir cwd options.newVersion
        (some options.commitMessage) (some target) options.dryRun
      ⟨Except.ok (), writes, r.1⟩
  | none =>
    let groups := groupByAddon allTocFiles
    if options.newVersion ≠ [] then
      ⟨Except.ok (),
        (groups.map (fun g => updateFiles g.2 options)).flatten,
        tagLoopExplicit env [] addonsDir cwd options groups⟩
    else
      let u := autoUpdates allTocFiles options groups
      match u.1 with
      | Except.error _ => ⟨Except.error (), u.2, []⟩
      | Except.ok _ =>
        let t := autoTagLoop env [] addonsDir cwd allTocFiles options groups
        ⟨t.1, u.2, t.2⟩

/-- Apply a list of writes to a disk (map from path to content). -/
def applyWrites (disk : Str → Str) (writes : List (Str × Str)) : Str → Str :=
  writes.foldl (fun d w => fun q => if q = w.1 then w.2 else d q) disk

/-- Dry-run `createGitTag` executes nothing and reports the three intended
actions in the source's print order: tag, commit, push. -/
lemma createGitTag_dry (env : GitEnv) (hist : List Cmd) (addonsDir cwd version : Str)
    (commitMessage targetAddon : Option Str) :
    createGitTag env hist addonsDir cwd version commitMessage targetAddon true =
      ([], [ReportItem.wouldCreateTag version,
        ReportItem.wouldCommitMsg (msgOrDefault commitMessage targetAddon version),
        ReportItem.wouldPush]) := rfl

/-- An all-zero environment, used for concrete instantiations. -/
def defaultEnv : GitEnv := fun _ _ => (0, [])

/-- C8 counterexample: at a concrete dry-run call the reports are in the
order tag, commit, push — not the commit-first order of the real
(non-dry-run) execution sequence that the claim asserts. -/
theorem createGitTag_dry_report_order_counterexample :
    (createGitTag defaultEnv [] "ad".toList "wd".toList "1.0.0".toList
        none none true).2 =
      [ReportItem.wouldCreateTag "1.0.0".toList,
        ReportItem.wouldCommitMsg "Bump version to 1.0.0".toList,
        ReportItem.wouldPush] ∧
    (createGitTag defaultEnv [] "ad".toList "wd".toList "1.0.0".toList
        none none true).2 ≠
      [ReportItem.wouldCommitMsg "Bump version to 1.0.0".toList,
        ReportItem.wouldCreateTag "1.0.0".toList,
        ReportItem.wouldPush] := by
  constructor
  · rfl
  · decide

/-- C8 (amended): in dry-run mode none of the version-control commands are
executed and each intended action is reported as hypothetical, but in the
order tag creation, then commit, then push — the commit announcement comes
second, unlike the real execution sequence which commits first. -/
theorem createGitTag_dry_reports_hypothetical_tag_commit_push
    (env : GitEnv) (hist : List Cmd) (addonsDir cwd version : Str)
    (commitMessage targetAddon : Option Str) :
    createGitTag env hist addonsDir cwd version commitMessage targetAddon true =
      ([], [ReportItem.wouldCreateTag version,
        ReportItem.wouldCommitMsg (msgOrDefault commitMessage targetAddon version),
        ReportItem.wouldPush]) :=
  createGitTag_dry env hist addonsDir cwd version commitMessage targetAddon

lemma updateFiles_dry (files : List TocFile) (options : VersionBumpOptions)
    (h : options.dryRun = true) : updateFiles files options = [] := by
  unfold updateFiles
  simp only [h, if_true]
  induction files with
  | nil => rfl
  | cons f fs ih =>
    rw [List.foldr_cons]
    exact ih

lemma tagLoopExplicit_dry (env : GitEnv) (addonsDir cwd : Str)
    (options : VersionBumpOptions) (h : options.dryRun = true) :
    ∀ (groups : List (Str × List TocFile)) (hist : List Cmd),
      tagLoopExplicit env hist addonsDir cwd options groups = [] := by
  intro groups
  induction groups with
  | nil => intro hist; rfl
  | cons g rest ih =>
    intro hist
    obtain ⟨name, files⟩ := g
    rw [tagLoopExplicit, h, createGitTag_dry]
    simp only [List.nil_append, List.append_nil]
    exact ih _

lemma autoUpdates_dry (allTocFiles : List TocFile) (options : VersionBumpOptions)
    (h : options.dryRun = true) :
    ∀ groups : List (Str × List TocFile),
      (autoUpdates allTocFiles options groups).2 = [] := by
  intro groups
  induction groups with
  | nil => rfl
  | cons g rest ih =>
    obtain ⟨name, files⟩ := g
    rw [autoUpdates]
    cases getNextVersion allTocFiles (some name) options.bumpType with
    | error e => rfl
    | ok o =>
      cases o with
      | none => exact ih
      | some v =>
        simp only []
        rw [updateFiles_dry _ _ (by simpa using h), List.nil_append]
        exact ih

lemma autoTagLoop_dry (env : GitEnv) (addonsDir cwd : Str)
    (allTocFiles : List TocFile) (options : VersionBumpOptions)
    (h : options.dryRun = true) :
    ∀ (groups : List (Str × List TocFile)) (hist : List Cmd),
      (autoTagLoop env hist addonsDir cwd allTocFiles options groups).2 = [] := by
  intro groups
  induction groups with
  | nil => intro hist; rfl
  | cons g rest ih =>
    intro hist
    obtain ⟨name, files⟩ := g
    rw [autoTagLoop]
    cases getNextVersion allTocFiles (some name) options.bumpType with
    | error e => rfl
    | ok o =>
      cases o with
      | none => exact ih _
      | some v =>
        simp only []
        rw [h, createGitTag_dry]
        simp only [List.nil_append, List.append_nil]
        exact ih _

/-- A dry-run `bumpVersion` performs no write and executes no command, on
every path. -/
lemma bumpVersion_dry (env : GitEnv) (allTocFiles : List TocFile)
    (addonsDir cwd : Str) (options : VersionBumpOptions)
    (h : options.dryRun = true) :
    (bumpVersion env allTocFiles addonsDir cwd options).writes = [] ∧
    (bumpVersion env allTocFiles addonsDir cwd options).cmds = [] := by
  unfold bumpVersion
  cases options.targetAddon with
  | some target =>
    simp only []
    by_cases hz : (getTocFilesForAddon allTocFiles target).length = 0
    · rw [if_pos hz]
      exact ⟨rfl, rfl⟩
    · rw [if_neg hz]
      rw [h, createGitTag_dry, updateFiles_dry _ _ h]
      exact ⟨rfl, rfl⟩
  | none =>
    simp only []
    by_cases hv : options.newVersion ≠ []
    · rw [if_pos hv]
      refine ⟨?_, ?_⟩
      · show (List.map (fun g => updateFiles g.2 options)
            (groupByAddon allTocFiles)).flatten = []
        rw [List.flatten_eq_nil_iff]
        intro l hl
        rcases List.mem_map.mp hl with ⟨g, -, rfl⟩
        exact updateFiles_dry _ _ h
      · exact tagLoopExplicit_dry env addonsDir cwd options h _ _
    · rw [if_neg hv]
      cases hu : (autoUpdates allTocFiles options (groupByAddon allTocFiles)).1 with
      | error e =>
        exact ⟨autoUpdates_dry _ _ h _, rfl⟩
      | ok u =>
        exact ⟨autoUpdates_dry _ _ h _,
          autoTagLoop_dry env addonsDir cwd allTocFiles options h _ _⟩

/-- C3: with the dry-run flag set, a bump performs no file write and
executes no version-control command on any path of `bumpVersion`; hence
any number of repeated dry runs — each reloading the records from the
then-current disk — leaves the disk, in particular every on-disk version
string, exactly as before the first run. -/
theorem bumpVersion_dry_run_no_effects_idempotent
    (env : GitEnv) (allTocFiles : List TocFile) (addonsDir cwd : Str)
    (options : VersionBumpOptions) (h : options.dryRun = true) :
    (bumpVersion env allTocFiles addonsDir cwd options).writes = [] ∧
    (bumpVersion env allTocFiles addonsDir cwd options).cmds = [] ∧
    (∀ (loadFiles : (Str → Str) → List TocFile) (disk : Str → Str) (n : Nat),
      (fun d => applyWrites d
        (bumpVersion env (loadFiles d) addonsDir cwd options).writes)^[n] disk = disk) := by
  obtain ⟨hw, hc⟩ := bumpVersion_dry env allTocFiles addonsDir cwd options h
  refine ⟨hw, hc, ?_⟩
  intro loadFiles disk n
  induction n with
  | zero => rfl
  | succ k ih =>
    rw [Function.iterate_succ_apply]
    have hstep : applyWrites disk
        (bumpVersion env (loadFiles disk) addonsDir cwd options).writes = disk := by
      rw [(bumpVersion_dry env (loadFiles disk) addonsDir cwd options h).1]
      rfl
    rw [hstep, ih]

/-- Witness for C3 at a concrete dry-run option set. -/
theorem bumpVersion_dry_run_no_effects_idempotent_witness :
    ((⟨"1.0.0".toList, true, none, BumpType.patch, "m".toList, false⟩ :
        VersionBumpOptions).dryRun = true) ∧
    ((bumpVersion defaultEnv [⟨"p".toList, "## Version: 0.9.9".toList,
          "0.9.9".toList, "A".toList⟩] "ad".toList "wd".toList
        ⟨"1.0.0".toList, true, none, BumpType.patch, "m".toList, false⟩).writes = [] ∧
      (bumpVersion defaultEnv [⟨"p".toList, "## Version: 0.9.9".toList,
          "0.9.9".toList, "A".toList⟩] "ad".toList "wd".toList
        ⟨"1.0.0".toList, true, none, BumpType.patch, "m".toList, false⟩).cmds = [] ∧
      (∀ (loadFiles : (Str → Str) → List TocFile) (disk : Str → Str) (n : Nat),
        (fun d => applyWrites d
          (bumpVersion defaultEnv (loadFiles d) "ad".toList "wd".toList
            ⟨"1.0.0".toList, true, none, BumpType.patch, "m".toList,
              false⟩).writes)^[n] disk = disk)) :=
  ⟨rfl, bumpVersion_dry_run_no_effects_idempotent defaultEnv _ _ _ _ rfl⟩

/-- Completion codes of a command sequence, threaded through the
environment after a given history. -/
def codesOf (env : GitEnv) : List Cmd → List Cmd → List Nat
  | _, [] => []
  | hist, c :: cs => (env hist c).1 :: codesOf env (hist ++ [c]) cs

lemma codesOf_append (env : GitEnv) (xs : List Cmd) :
    ∀ (hist ys : List Cmd),
      codesOf env hist (xs ++ ys) = codesOf env hist xs ++ codesOf env (hist ++ xs) ys := by
  induction xs with
  | nil => intro hist ys; simp [codesOf]
  | cons c cs ih =>
    intro hist ys
    rw [List.cons_append, codesOf, codesOf, ih]
    simp [List.append_assoc]

/-- Outcomes of the tag-then-push tail: the executed commands extend `pre`
by the tag command and, when the tag succeeded, the push command; every
executed command but possibly the last succeeded; a failure produces
exactly one consolidated failure report and full success produces none. -/
lemma tagAndPush_spec (env : GitEnv) (hist pre : List Cmd)
    (preReports : List ReportItem) (wd tagName version : Str) :
    ∃ suf sufReps,
      tagAndPush env hist pre preReports wd tagName version =
        (pre ++ suf, preReports ++ sufReps) ∧
      (suf = [tagCmd wd tagName] ∨ suf = [tagCmd wd tagName, pushCmd wd tagName]) ∧
      (∀ code ∈ (codesOf env (hist ++ pre) suf).dropLast, code = 0) ∧
      sufReps.count ReportItem.gitFailed ≤ 1 ∧
      ((∃ code ∈ codesOf env (hist ++ pre) suf, code ≠ 0) →
        sufReps.count ReportItem.gitFailed = 1) ∧
      ((∀ code ∈ codesOf env (hist ++ pre) suf, code = 0) →
        sufReps.count ReportItem.gitFailed = 0) := by
  unfold tagAndPush
  by_cases h4 : (env (hist ++ pre) (tagCmd wd tagName)).1 = 0
  · rw [if_neg (not_not.mpr h4)]
    by_cases h5 : (env (hist ++ pre ++ [tagCmd wd tagName]) (pushCmd wd tagName)).1 = 0
    · rw [if_neg (not_not.mpr h5)]
      refine ⟨[tagCmd wd tagName, pushCmd wd tagName],
        [ReportItem.creatingTag tagName, ReportItem.pushing, ReportItem.completed version],
        rfl, Or.inr rfl, ?_, ?_, ?_, ?_⟩
      · intro code hc
        simp only [codesOf, List.dropLast_cons₂, List.dropLast_single,
          List.mem_cons, List.not_mem_nil, or_false] at hc
        rw [hc]
        exact h4
      · simp [List.count_cons]
      · intro ⟨code, hc, hne⟩
        simp only [codesOf, List.mem_cons, List.not_mem_nil, or_false] at hc
        rcases hc with rfl | rfl
        · exact absurd h4 hne
        · exact absurd h5 hne
      · intro hz
        simp [List.count_cons]
    · rw [if_pos h5]
      refine ⟨[tagCmd wd tagName, pushCmd wd tagName],
        [ReportItem.creatingTag tagName, ReportItem.pushing, ReportItem.gitFailed],
        rfl, Or.inr rfl, ?_, ?_, ?_, ?_⟩
      · intro code hc
        simp only [codesOf, List.dropLast_cons₂, List.dropLast_single,
          List.mem_cons, List.not_mem_nil, or_false] at hc
        rw [hc]
        exact h4
      · simp [List.count_cons]
      · intro hex
        simp [List.count_cons]
      · intro hz
        exact absurd (hz _ (by simp [codesOf])) h5
  · rw [if_pos h4]
    refine ⟨[tagCmd wd tagName],
      [ReportItem.creatingTag tagName, ReportItem.gitFailed],
      rfl, Or.inl rfl, ?_, ?_, ?_, ?_⟩
    · intro code hc
      simp [codesOf] at hc
    · simp [List.count_cons]
    · intro hex
      simp [List.count_cons]
    · intro hz
      exact absurd (hz _ (by simp [codesOf])) h4

/-- Non-dry-run `createGitTag`: every executed command except possibly the
last exited 0 (a non-zero status stops the remaining steps), at most one
consolidated failure is reported — exactly one when some command failed —
and the executed commands form a subsequence of the forward
status/add/commit/tag/push sequence (nothing is rolled back). -/
lemma createGitTag_spec (env : GitEnv) (hist : List Cmd)
    (addonsDir cwd version : Str) (commitMessage targetAddon : Option Str) :
    (∀ code ∈ (codesOf env hist (createGitTag env hist addonsDir cwd version
        commitMessage targetAddon false).1).dropLast, code = 0) ∧
    (createGitTag env hist addonsDir cwd version commitMessage targetAddon
        false).2.count ReportItem.gitFailed ≤ 1 ∧
    ((∃ code ∈ codesOf env hist (createGitTag env hist addonsDir cwd version
        commitMessage targetAddon false).1, code ≠ 0) →
      (createGitTag env hist addonsDir cwd version commitMessage targetAddon
        false).2.count ReportItem.gitFailed = 1) ∧
    List.Sublist
      (createGitTag env hist addonsDir cwd version commitMessage targetAddon false).1
      [statusCmd (gitWorkingDir addonsDir cwd targetAddon),
        addCmd (gitWorkingDir addonsDir cwd targetAddon),
        commitCmd (gitWorkingDir addonsDir cwd targetAddon)
          (msgOrDefault commitMessage targetAddon version),
        tagCmd (gitWorkingDir addonsDir cwd targetAddon) version,
        pushCmd (gitWorkingDir addonsDir cwd targetAddon) version] := by
  unfold createGitTag
  rw [if_neg Bool.false_ne_true]
  simp only []
  set wd := gitWorkingDir addonsDir cwd targetAddon with hwd
  set msg := msgOrDefault commitMessage targetAddon version with hmsg
  by_cases h1 : (env hist (statusCmd wd)).1 = 0
  case neg =>
    rw [if_pos h1]
    refine ⟨?_, ?_, ?_, ?_⟩
    · intro code hc
      simp [codesOf] at hc
    · simp [List.count_cons]
    · intro hex
      simp [List.count_cons]
    · exact List.cons_sublist_cons.mpr (List.nil_sublist _)
  case pos =>
  rw [if_neg (not_not.mpr h1)]
  by_cases h2 : jsTrim (env hist (statusCmd wd)).2 ≠ []
  case pos =>
    rw [if_pos h2]
    by_cases ha : (env (hist ++ [statusCmd wd]) (addCmd wd)).1 = 0
    case neg =>
      rw [if_pos ha]
      refine ⟨?_, ?_, ?_, ?_⟩
      · intro code hc
        simp only [codesOf, List.dropLast_cons₂, List.dropLast_single,
          List.mem_cons, List.not_mem_nil, or_false] at hc
        rw [hc]
        exact h1
      · simp [List.count_cons]
      · intro hex
        simp [List.count_cons]
      · exact List.cons_sublist_cons.mpr
          (List.cons_sublist_cons.mpr (List.nil_sublist _))
    case pos =>
    rw [if_neg (not_not.mpr ha)]
    by_cases hc3 : (env (hist ++ [statusCmd wd, addCmd wd]) (commitCmd wd msg)).1 = 0
    case neg =>
      rw [if_pos hc3]
      refine ⟨?_, ?_, ?_, ?_⟩
      · intro code hcm
        simp only [codesOf, List.dropLast_cons₂, List.dropLast_single,
          List.mem_cons, List.not_mem_nil, or_false] at hcm
        rcases hcm with rfl | rfl
        · exact h1
        · exact ha
      · simp [List.count_cons]
      · intro hex
        simp [List.count_cons]
      · exact List.cons_sublist_cons.mpr (List.cons_sublist_cons.mpr
          (List.cons_sublist_cons.mpr (List.nil_sublist _)))
    case pos =>
      rw [if_neg (not_not.mpr hc3)]
      obtain ⟨suf, sufReps, heq, hshape, hsufcodes, hcnt, hfail1, -⟩ :=
        tagAndPush_spec env hist [statusCmd wd, addCmd wd, commitCmd wd msg]
          [ReportItem.committing] wd version version
      rw [heq]
      have hsufne : suf ≠ [] := by
        rcases hshape with rfl | rfl <;> simp
      have hprecodes : codesOf env hist [statusCmd wd, addCmd wd, commitCmd wd msg] =
          [(env hist (statusCmd wd)).1,
            (env (hist ++ [statusCmd wd]) (addCmd wd)).1,
            (env (hist ++ [statusCmd wd, addCmd wd]) (commitCmd wd msg)).1] := by
        simp [codesOf]
      refine ⟨?_, ?_, ?_, ?_⟩
      · intro code hcm
        rw [codesOf_append, List.dropLast_append_of_ne_nil _ (by
            rcases hshape with rfl | rfl <;> simp [codesOf])] at hcm
        rcases List.mem_append.mp hcm with hcm | hcm
        · rw [hprecodes] at hcm
          simp only [List.mem_cons, List.not_mem_nil, or_false] at hcm
          rcases hcm with rfl | rfl | rfl
          · exact h1
          · exact ha
          · exact hc3
        · exact hsufcodes code hcm
      · simp only [List.count_append, List.count_cons, List.count_nil]
        simpa using hcnt
      · intro ⟨code, hcm, hcode⟩
        rw [codesOf_append] at hcm
        rcases List.mem_append.mp hcm with hcm | hcm
        · exfalso
          rw [hprecodes] at hcm
          simp only [List.mem_cons, List.not_mem_nil, or_false] at hcm
          rcases hcm with rfl | rfl | rfl
          · exact hcode h1
          · exact hcode ha
          · exact hcode hc3
        · have := hfail1 ⟨code, hcm, hcode⟩
          simp only [List.count_append, List.count_cons, List.count_nil]
          simpa using this
      · rcases hshape with rfl | rfl
        · exact List.cons_sublist_cons.mpr (List.cons_sublist_cons.mpr
            (List.cons_sublist_cons.mpr (List.cons_sublist_cons.mpr
              (List.nil_sublist _))))
        · exact List.Sublist.refl _
  case neg =>
    rw [if_neg h2]
    obtain ⟨suf, sufReps, heq, hshape, hsufcodes, hcnt, hfail1, -⟩ :=
      tagAndPush_spec env hist [statusCmd wd] [] wd version version
    rw [heq]
    have hprecodes : codesOf env hist [statusCmd wd] = [(env hist (statusCmd wd)).1] := by
      simp [codesOf]
    refine ⟨?_, ?_, ?_, ?_⟩
    · intro code hcm
      rw [codesOf_append, List.dropLast_append_of_ne_nil _ (by
          rcases hshape with rfl | rfl <;> simp [codesOf])] at hcm
      rcases List.mem_append.mp hcm with hcm | hcm
      · rw [hprecodes] at hcm
        simp only [List.mem_cons, List.not_mem_nil, or_false] at hcm
        rw [hcm]
        exact h1
      · exact hsufcodes code hcm
    · simpa using hcnt
    · intro ⟨code, hcm, hcode⟩
      rw [codesOf_append] at hcm
      rcases List.mem_append.mp hcm with hcm | hcm
      · exfalso
        rw [hprecodes] at hcm
        simp only [List.mem_cons, List.not_mem_nil, or_false] at hcm
        rw [hcm] at hcode
        exact hcode h1
      · simpa using hfail1 ⟨code, hcm, hcode⟩
    · rcases hshape with rfl | rfl
      · exact List.cons_sublist_cons.mpr (List.Sublist.cons _ (List.Sublist.cons _
          (List.cons_sublist_cons.mpr (List.nil_sublist _))))
      · exact List.cons_sublist_cons.mpr (List.Sublist.cons _ (List.Sublist.cons _
          (List.Sublist.refl _)))

/-- A non-dry-run `createGitTag` always begins by executing the status
query in its working directory. -/
lemma createGitTag_starts_with_status (env : GitEnv) (hist : List Cmd)
    (addonsDir cwd version : Str) (commitMessage targetAddon : Option Str) :
    ∃ rest, (createGitTag env hist addonsDir cwd version commitMessage
        targetAddon false).1 =
      statusCmd (gitWorkingDir addonsDir cwd targetAddon) :: rest := by
  unfold createGitTag
  rw [if_neg Bool.false_ne_true]
  simp only []
  set wd := gitWorkingDir addonsDir cwd targetAddon
  set msg := msgOrDefault commitMessage targetAddon version
  by_cases h1 : (env hist (statusCmd wd)).1 = 0
  case neg =>
    rw [if_pos h1]
    exact ⟨[], rfl⟩
  case pos =>
  rw [if_neg (not_not.mpr h1)]
  by_cases h2 : jsTrim (env hist (statusCmd wd)).2 ≠ []
  case pos =>
    rw [if_pos h2]
    by_cases ha : (env (hist ++ [statusCmd wd]) (addCmd wd)).1 = 0
    case neg =>
      rw [if_pos ha]
      exact ⟨[addCmd wd], rfl⟩
    case pos =>
    rw [if_neg (not_not.mpr ha)]
    by_cases hc3 : (env (hist ++ [statusCmd wd, addCmd wd]) (commitCmd wd msg)).1 = 0
    case neg =>
      rw [if_pos hc3]
      exact ⟨[addCmd wd, commitCmd wd msg], rfl⟩
    case pos =>
      rw [if_neg (not_not.mpr hc3)]
      obtain ⟨suf, sufReps, heq, -, -, -, -, -⟩ :=
        tagAndPush_spec env hist [statusCmd wd, addCmd wd, commitCmd wd msg]
          [ReportItem.committing] wd version version
      rw [heq]
      exact ⟨[addCmd wd, commitCmd wd msg] ++ suf, rfl⟩
  case neg =>
    rw [if_neg h2]
    obtain ⟨suf, sufReps, heq, -, -, -, -, -⟩ :=
      tagAndPush_spec env hist [statusCmd wd] [] wd version version
    rw [heq]
    exact ⟨suf, rfl⟩

/-- In a non-dry multi-addon explicit-version bump, every addon group's
tag/commit/push sequence is attempted: each group's status command is
executed regardless of other groups' failures. -/
lemma tagLoopExplicit_attempts_all (env : GitEnv) (addonsDir cwd : Str)
    (options : VersionBumpOptions) (h : options.dryRun = false) :
    ∀ (groups : List (Str × List TocFile)) (hist : List Cmd),
      ∀ g ∈ groups,
        statusCmd (gitWorkingDir addonsDir cwd (some g.1)) ∈
          tagLoopExplicit env hist addonsDir cwd options groups := by
  intro groups
  induction groups with
  | nil =>
    intro hist g hg
    simp at hg
  | cons gr rest ih =>
    intro hist g hg
    obtain ⟨name, files⟩ := gr
    rw [tagLoopExplicit]
    rcases List.mem_cons.mp hg with rfl | hg
    · apply List.mem_append_left
      rw [h]
      obtain ⟨rest2, hr⟩ := createGitTag_starts_with_status env hist addonsDir cwd
        options.newVersion
        (some ("Bump ".toList ++ name ++ " version to ".toList ++ options.newVersion))
        (some name)
      rw [hr]
      exact List.mem_cons_self _ _
    · exact List.mem_append_right _ (ih _ g hg)

/-- When every addon's next version computes without throwing, the
auto-increment update loop completes normally. -/
lemma autoUpdates_ok (allTocFiles : List TocFile) (options : VersionBumpOptions) :
    ∀ groups : List (Str × List TocFile),
      (∀ g ∈ groups, ∃ o,
        getNextVersion allTocFiles (some g.1) options.bumpType = Except.ok o) →
      (autoUpdates allTocFiles options groups).1 = Except.ok () := by
  intro groups
  induction groups with
  | nil =>
    intro h
    rfl
  | cons gr rest ih =>
    intro h
    obtain ⟨name, files⟩ := gr
    obtain ⟨o, ho⟩ := h (name, files) (List.mem_cons_self _ _)
    simp only [] at ho
    rw [autoUpdates, ho]
    cases o with
    | none => exact ih (fun g hg => h g (List.mem_cons_of_mem _ hg))
    | some v => exact ih (fun g hg => h g (List.mem_cons_of_mem _ hg))

/-- When every addon's next version computes without throwing, the
auto-increment tag loop completes normally. -/
lemma autoTagLoop_ok (env : GitEnv) (addonsDir cwd : Str)
    (allTocFiles : List TocFile) (options : VersionBumpOptions) :
    ∀ (groups : List (Str × List TocFile)) (hist : List Cmd),
      (∀ g ∈ groups, ∃ o,
        getNextVersion allTocFiles (some g.1) options.bumpType = Except.ok o) →
      (autoTagLoop env hist addonsDir cwd allTocFiles options groups).1 =
        Except.ok () := by
  intro groups
  induction groups with
  | nil =>
    intro hist h
    rfl
  | cons gr rest ih =>
    intro hist h
    obtain ⟨name, files⟩ := gr
    obtain ⟨o, ho⟩ := h (name, files) (List.mem_cons_self _ _)
    simp only [] at ho
    rw [autoTagLoop, ho]
    cases o with
    | none => exact ih _ (fun g hg => h g (List.mem_cons_of_mem _ hg))
    | some v => exact ih _ (fun g hg => h g (List.mem_cons_of_mem _ hg))

/-- In a non-dry auto-increment multi-addon bump whose next-version
computations all succeed, every addon whose next version exists gets its
tag/commit/push sequence attempted (its status command is executed),
regardless of other addons' command failures. -/
lemma autoTagLoop_attempts_all (env : GitEnv) (addonsDir cwd : Str)
    (allTocFiles : List TocFile) (options : VersionBumpOptions)
    (hd : options.dryRun = false) :
    ∀ (groups : List (Str × List TocFile)) (hist : List Cmd),
      (∀ g ∈ groups, ∃ o,
        getNextVersion allTocFiles (some g.1) options.bumpType = Except.ok o) →
      ∀ g ∈ groups, ∀ v,
        getNextVersion allTocFiles (some g.1) options.bumpType =
          Except.ok (some v) →
        statusCmd (gitWorkingDir addonsDir cwd (some g.1)) ∈
          (autoTagLoop env hist addonsDir cwd allTocFiles options groups).2 := by
  intro groups
  induction groups with
  | nil =>
    intro hist hall g hg
    simp at hg
  | cons gr rest ih =>
    intro hist hall g hg v hv
    obtain ⟨name, files⟩ := gr
    rcases List.mem_cons.mp hg with rfl | hg
    · simp only [] at hv
      rw [autoTagLoop, hv]
      simp only []
      apply List.mem_append_left
      rw [hd]
      obtain ⟨rest2, hr⟩ := createGitTag_starts_with_status env hist addonsDir cwd v
        (some ("Bump ".toList ++ name ++ " version to ".toList ++ v)) (some name)
      rw [hr]
      exact List.mem_cons_self _ _
    · obtain ⟨o, ho⟩ := hall (name, files) (List.mem_cons_self _ _)
      simp only [] at ho
      rw [autoTagLoop, ho]
      cases o with
      | none =>
        exact ih _ (fun g2 hg2 => hall g2 (List.mem_cons_of_mem _ hg2)) g hg v hv
      | some v2 =>
        simp only []
        exact List.mem_append_right _
          (ih _ (fun g2 hg2 => hall g2 (List.mem_cons_of_mem _ hg2)) g hg v hv)

/-- C6: in every non-dry-run Release Recorder call, a command completing
with non-zero status stops the remaining steps of that call (all executed
commands except possibly the last exited 0), a single consolidated failure
is reported (exactly one failure report when some command failed, never
more than one), the executed commands are a subsequence of the forward
status/add/commit/tag/push sequence (no rollback of an earlier commit or
tag), and the call returns normally — in a multi-addon bump, both with an
explicit version and on the auto-increment path, the run completes and
every remaining addon's sequence is still attempted (on the auto path,
every addon whose next version computes). -/
theorem gitFailure_aborts_call_single_report_others_attempted :
    (∀ (env : GitEnv) (hist : List Cmd) (addonsDir cwd version : Str)
        (commitMessage targetAddon : Option Str),
      (∀ code ∈ (codesOf env hist (createGitTag env hist addonsDir cwd version
          commitMessage targetAddon false).1).dropLast, code = 0) ∧
      (createGitTag env hist addonsDir cwd version commitMessage targetAddon
          false).2.count ReportItem.gitFailed ≤ 1 ∧
      ((∃ code ∈ codesOf env hist (createGitTag env hist addonsDir cwd version
          commitMessage targetAddon false).1, code ≠ 0) →
        (createGitTag env hist addonsDir cwd version commitMessage targetAddon
          false).2.count ReportItem.gitFailed = 1) ∧
      List.Sublist
        (createGitTag env hist addonsDir cwd version commitMessage targetAddon false).1
        [statusCmd (gitWorkingDir addonsDir cwd targetAddon),
          addCmd (gitWorkingDir addonsDir cwd targetAddon),
          commitCmd (gitWorkingDir addonsDir cwd targetAddon)
            (msgOrDefault commitMessage targetAddon version),
          tagCmd (gitWorkingDir addonsDir cwd targetAddon) version,
          pushCmd (gitWorkingDir addonsDir cwd targetAddon) version]) ∧
    (∀ (env : GitEnv) (allTocFiles : List TocFile) (addonsDir cwd : Str)
        (options : VersionBumpOptions),
      options.targetAddon = none → options.newVersion ≠ [] →
      options.dryRun = false →
      (bumpVersion env allTocFiles addonsDir cwd options).outcome = Except.ok () ∧
      (∀ g ∈ groupByAddon allTocFiles,
        statusCmd (gitWorkingDir addonsDir cwd (some g.1)) ∈
          (bumpVersion env allTocFiles addonsDir cwd options).cmds)) ∧
    (∀ (env : GitEnv) (allTocFiles : List TocFile) (addonsDir cwd : Str)
        (options : VersionBumpOptions),
      options.targetAddon = none → options.newVersion = [] →
      options.dryRun = false →
      (∀ g ∈ groupByAddon allTocFiles, ∃ o,
        getNextVersion allTocFiles (some g.1) options.bumpType = Except.ok o) →
      (bumpVersion env allTocFiles addonsDir cwd options).outcome = Except.ok () ∧
      (∀ g ∈ groupByAddon allTocFiles, ∀ v,
        getNextVersion allTocFiles (some g.1) options.bumpType =
          Except.ok (some v) →
        statusCmd (gitWorkingDir addonsDir cwd (some g.1)) ∈
          (bumpVersion env allTocFiles addonsDir cwd options).cmds)) := by
  refine ⟨?_, ?_, ?_⟩
  · intro env hist addonsDir cwd version commitMessage targetAddon
    exact createGitTag_spec env hist addonsDir cwd version commitMessage targetAddon
  · intro env allTocFiles addonsDir cwd options ht hv hd
    unfold bumpVersion
    rw [ht]
    simp only []
    rw [if_pos hv]
    exact ⟨rfl, fun g hg =>
      tagLoopExplicit_attempts_all env addonsDir cwd options hd _ _ g hg⟩
  · intro env allTocFiles addonsDir cwd options ht hv0 hd hvers
    unfold bumpVersion
    rw [ht]
    simp only []
    rw [if_neg (fun hn => hn hv0)]
    have hu : (autoUpdates allTocFiles options (groupByAddon allTocFiles)).1 =
        Except.ok () :=
      autoUpdates_ok allTocFiles options _ hvers
    rw [hu]
    refine ⟨?_, ?_⟩
    · exact autoTagLoop_ok env addonsDir cwd allTocFiles options _ _ hvers
    · intro g hg v hvv
      exact autoTagLoop_attempts_all env addonsDir cwd allTocFiles options hd _ _
        hvers g hg v hvv

/-- Witness for C6 on a concrete two-addon bump, exercising both the
explicit-version and the auto-increment multi-addon paths. -/
theorem gitFailure_aborts_call_single_report_others_attempted_witness :
    (((⟨"2.0.0".toList, false, none, BumpType.patch, "m".toList, false⟩ :
        VersionBumpOptions).targetAddon = none ∧
      (⟨"2.0.0".toList, false, none, BumpType.patch, "m".toList, false⟩ :
        VersionBumpOptions).newVersion ≠ [] ∧
      (⟨"2.0.0".toList, false, none, BumpType.patch, "m".toList, false⟩ :
        VersionBumpOptions).dryRun = false) ∧
    ((bumpVersion defaultEnv
        [⟨"p1".toList, [], "1.0.0".toList, "A".toList⟩,
          ⟨"p2".toList, [], "1.0.0".toList, "B".toList⟩] "ad".toList "wd".toList
        ⟨"2.0.0".toList, false, none, BumpType.patch, "m".toList,
          false⟩).outcome = Except.ok () ∧
      (∀ g ∈ groupByAddon
          [⟨"p1".toList, [], "1.0.0".toList, "A".toList⟩,
            ⟨"p2".toList, [], "1.0.0".toList, "B".toList⟩],
        statusCmd (gitWorkingDir "ad".toList "wd".toList (some g.1)) ∈
          (bumpVersion defaultEnv
            [⟨"p1".toList, [], "1.0.0".toList, "A".toList⟩,
              ⟨"p2".toList, [], "1.0.0".toList, "B".toList⟩] "ad".toList "wd".toList
            ⟨"2.0.0".toList, false, none, BumpType.patch, "m".toList,
              false⟩).cmds))) ∧
    ((((⟨[], false, none, BumpType.patch, "m".toList, false⟩ :
        VersionBumpOptions).targetAddon = none ∧
      (⟨[], false, none, BumpType.patch, "m".toList, false⟩ :
        VersionBumpOptions).newVersion = [] ∧
      (⟨[], false, none, BumpType.patch, "m".toList, false⟩ :
        VersionBumpOptions).dryRun = false) ∧
      (∀ g ∈ groupByAddon
          [⟨"p1".toList, [], "1.0.0".toList, "A".toList⟩,
            ⟨"p2".toList, [], "1.0.0".toList, "B".toList⟩], ∃ o,
        getNextVersion
          [⟨"p1".toList, [], "1.0.0".toList, "A".toList⟩,
            ⟨"p2".toList, [], "1.0.0".toList, "B".toList⟩] (some g.1)
          (⟨[], false, none, BumpType.patch, "m".toList, false⟩ :
            VersionBumpOptions).bumpType = Except.ok o)) ∧
    ((bumpVersion defaultEnv
        [⟨"p1".toList, [], "1.0.0".toList, "A".toList⟩,
          ⟨"p2".toList, [], "1.0.0".toList, "B".toList⟩] "ad".toList "wd".toList
        ⟨[], false, none, BumpType.patch, "m".toList,
          false⟩).outcome = Except.ok () ∧
      (∀ g ∈ groupByAddon
          [⟨"p1".toList, [], "1.0.0".toList, "A".toList⟩,
            ⟨"p2".toList, [], "1.0.0".toList, "B".toList⟩], ∀ v,
        getNextVersion
          [⟨"p1".toList, [], "1.0.0".toList, "A".toList⟩,
            ⟨"p2".toList, [], "1.0.0".toList, "B".toList⟩] (some g.1)
          (⟨[], false, none, BumpType.patch, "m".toList, false⟩ :
            VersionBumpOptions).bumpType = Except.ok (some v) →
        statusCmd (gitWorkingDir "ad".toList "wd".toList (some g.1)) ∈
          (bumpVersion defaultEnv
            [⟨"p1".toList, [], "1.0.0".toList, "A".toList⟩,
              ⟨"p2".toList, [], "1.0.0".toList, "B".toList⟩] "ad".toList "wd".toList
            ⟨[], false, none, BumpType.patch, "m".toList,
              false⟩).cmds))) := by
  have hG : groupByAddon
      [(⟨"p1".toList, [], "1.0.0".toList, "A".toList⟩ : TocFile),
        ⟨"p2".toList, [], "1.0.0".toList, "B".toList⟩] =
      [("A".toList, [⟨"p1".toList, [], "1.0.0".toList, "A".toList⟩]),
        ("B".toList, [⟨"p2".toList, [], "1.0.0".toList, "B".toList⟩])] := by
    decide
  have hvers : ∀ g ∈ groupByAddon
      [(⟨"p1".toList, [], "1.0.0".toList, "A".toList⟩ : TocFile),
        ⟨"p2".toList, [], "1.0.0".toList, "B".toList⟩], ∃ o,
      getNextVersion
        [⟨"p1".toList, [], "1.0.0".toList, "A".toList⟩,
          ⟨"p2".toList, [], "1.0.0".toList, "B".toList⟩] (some g.1)
        BumpType.patch = Except.ok o := by
    intro g hg
    rw [hG] at hg
    rcases List.mem_cons.mp hg with rfl | hg
    · exact ⟨some "1.0.1".toList, by rfl⟩
    · rcases List.mem_cons.mp hg with rfl | hg
      · exact ⟨some "1.0.1".toList, by rfl⟩
      · simp at hg
  exact ⟨⟨⟨rfl, by decide, rfl⟩,
      gitFailure_aborts_call_single_report_others_attempted.2.1 defaultEnv
        [⟨"p1".toList, [], "1.0.0".toList, "A".toList⟩,
          ⟨"p2".toList, [], "1.0.0".toList, "B".toList⟩] "ad".toList "wd".toList
        ⟨"2.0.0".toList, false, none, BumpType.patch, "m".toList, false⟩
        rfl (by decide) rfl⟩,
    ⟨⟨rfl, rfl, rfl⟩, hvers⟩,
      gitFailure_aborts_call_single_report_others_attempted.2.2 defaultEnv
        [⟨"p1".toList, [], "1.0.0".toList, "A".toList⟩,
          ⟨"p2".toList, [], "1.0.0".toList, "B".toList⟩] "ad".toList "wd".toList
        ⟨[], false, none, BumpType.patch, "m".toList, false⟩
        rfl rfl rfl hvers⟩

/-- The version pattern of the CLI (three runs of digits joined by dots). -/
def isVersionShape (s : Str) : Bool :=
  match splitDot s with
  | [a, b, c] =>
    !a.isEmpty && a.all Char.isDigit && !b.isEmpty && b.all Char.isDigit &&
      !c.isEmpty && c.all Char.isDigit
  | _ => false

/-- `parseBumpArgs` (CLI, lines 306-379): builds the bump options from the
arguments after `bump`; a thrown `Error` (invalid arguments, or no current
version to auto-increment) is `Except.error`.  An empty-string second
argument behaves as an absent addon everywhere it is later consulted and
is modelled as `none`. -/
def parseBumpArgs (allTocFiles : List TocFile) (args : List Str) :
    Except Unit VersionBumpOptions :=
  let bumpType :=
    if args.any (fun a => a == "--major".toList) then BumpType.major
    else if args.any (fun a => a == "--minor".toList) then BumpType.minor
    else BumpType.patch
  let dryRun := args.any (fun a => a == "--dry".toList)
  let verbose := args.any (fun a => a == "--verbose".toList)
  match args with
  | [] =>
    match getNextVersion allTocFiles none bumpType with
    | Except.error _ => Except.error ()
    | Except.ok none => Except.error ()
    | Except.ok (some v) =>
      Except.ok ⟨v, dryRun, none, bumpType, "Bump version to ".toList ++ v, verbose⟩
  | arg0 :: restArgs =>
    if isVersionShape arg0 then
      let targetAddon :=
        match restArgs with
        | [] => none
        | a1 :: _ =>
          if a1.isEmpty then none
          else if ("--".toList).isPrefixOf a1 then none
          else some a1
      Except.ok ⟨arg0, dryRun, targetAddon, bumpType,
        (match targetAddon with
         | some t => "Bump ".toList ++ t ++ " version to ".toList ++ arg0
         | none => "Bump version to ".toList ++ arg0), verbose⟩
    else if arg0 = "all".toList then
      Except.ok ⟨[], dryRun, none, bumpType, "Bump version to auto".toList, verbose⟩
    else if ("--".toList).isPrefixOf arg0 then
      Except.error ()
    else
      match restArgs with
      | a1 :: _ =>
        if isVersionShape a1 then
          Except.ok ⟨a1, dryRun, some arg0, bumpType,
            "Bump ".toList ++ arg0 ++ " version to ".toList ++ a1, verbose⟩
        else
          match getNextVersion allTocFiles (some arg0) bumpType with
          | Except.error _ => Except.error ()
          | Except.ok none => Except.error ()
          | Except.ok (some v) =>
            Except.ok ⟨v, dryRun, some arg0, bumpType,
              "Bump ".toList ++ arg0 ++ " version to ".toList ++ v, verbose⟩
      | [] =>
        match getNextVersion allTocFiles (some arg0) bumpType with
        | Except.error _ => Except.error ()
        | Except.ok none => Except.error ()
        | Except.ok (some v) =>
          Except.ok ⟨v, dryRun, some arg0, bumpType,
            "Bump ".toList ++ arg0 ++ " version to ".toList ++ v, verbose⟩

/-- `run` (CLI dispatch): returns the process exit code and whether the
unknown-command error report was printed.  `Deno.exit(1)` is reached only
from the catch block around a thrown error; the unknown-command branch
prints its report and falls through to a normal exit. -/
def CLI.run (env : GitEnv) (allTocFiles : List TocFile) (addonsDir cwd : Str)
    (args : List Str) : Nat × Bool :=
  match args with
  | [] => (0, false)
  | command :: rest =>
    if command = "show".toList then (0, false)
    else if command = "list".toList then (0, false)
    else if command = "whitelist".toList then (0, false)
    else if command = "config".toList then (0, false)
    else if command = "bump".toList then
      match parseBumpArgs allTocFiles rest with
      | Except.error _ => (1, false)
      | Except.ok options =>
        match (bumpVersion env allTocFiles addonsDir cwd options).outcome with
        | Except.error _ => (1, false)
        | Except.ok _ => (0, false)
    else (0, true)

/-- C7 counterexample: for the unknown command `frobnicate` the program
prints the error report but exits with code 0, not a non-zero code as the
claim asserts. -/
theorem unknown_command_exit_code_counterexample :
    (CLI.run defaultEnv [] "ad".toList "wd".toList ["frobnicate".toList]).1 = 0 ∧
    (CLI.run defaultEnv [] "ad".toList "wd".toList ["frobnicate".toList]).2 = true ∧
    ¬((CLI.run defaultEnv [] "ad".toList "wd".toList ["frobnicate".toList]).1 ≠ 0) := by
  refine ⟨by decide, by decide, ?_⟩
  intro h
  exact h (by decide)

/-- C7 (amended): for every non-empty argument list whose first argument is
not one of the known top-level commands, the program reports an error, but
the process exits with code 0 (the unknown-command branch never calls the
non-zero exit). -/
theorem unknown_command_reports_error_exits_zero
    (env : GitEnv) (allTocFiles : List TocFile) (addonsDir cwd : Str)
    (command : Str) (rest : List Str)
    (h : command ≠ "show".toList ∧ command ≠ "list".toList ∧
      command ≠ "whitelist".toList ∧ command ≠ "config".toList ∧
      command ≠ "bump".toList) :
    CLI.run env allTocFiles addonsDir cwd (command :: rest) = (0, true) := by
  obtain ⟨h1, h2, h3, h4, h5⟩ := h
  unfold CLI.run
  simp only []
  rw [if_neg h1, if_neg h2, if_neg h3, if_neg h4, if_neg h5]

/-- Witness for the amended C7 at the concrete command `frobnicate`. -/
theorem unknown_command_reports_error_exits_zero_witness :
    ("frobnicate".toList ≠ "show".toList ∧ "frobnicate".toList ≠ "list".toList ∧
      "frobnicate".toList ≠ "whitelist".toList ∧
      "frobnicate".toList ≠ "config".toList ∧
      "frobnicate".toList ≠ "bump".toList) ∧
    CLI.run defaultEnv [] "ad".toList "wd".toList ["frobnicate".toList] = (0, true) :=
  ⟨by decide, unknown_command_reports_error_exits_zero defaultEnv [] "ad".toList
    "wd".toList "frobnicate".toList [] (by decide)⟩
